import Mathlib

/-!
Verification of the argo-cd manifest-generation core and AppProject policy
helpers. Pure functions from `pkg/apis/application/v1alpha1/app_project_types.go`
are embedded directly; components of the repo-server core whose code is not in
the source tree are modelled from the specification document, as marked on each
definition.

Go strings are embedded as Lean `String`; Go slices as `List`; Go `nil` slices
and maps are `Option` `none` where the code distinguishes nil from empty;
external collaborators (glob matcher, git URL normalizer, semver constraint
checker) are abstract function parameters.
-/

namespace ArgoProj

/-- From `isDenyPattern` in app_project_types.go: `strings.HasPrefix(pattern, "!")`. -/
def isDenyPattern (pattern : String) : Bool :=
  pattern.data.take 1 == ['!']

/-- From `globMatch` in app_project_types.go. The external `glob.Match`
(with its separator arguments fixed) is the abstract parameter `m`. -/
def globMatch (m : String → String → Bool) (pattern val : String)
    (allowNegation : Bool) : Bool :=
  if allowNegation && isDenyPattern pattern then
    !(m (pattern.drop 1) val)
  else if pattern = "*" then
    true
  else
    m pattern val

/-- Loop body of `IsSourcePermitted` in app_project_types.go, with the running
`anySourceMatched` accumulator made explicit. `norm` is `git.NormalizeGitURL`;
`m` is `glob.Match` with separator '/'. Returning `false` embeds the early
`return false` on a deny pattern whose body matches. -/
def isSourcePermittedLoop (norm : String → String) (m : String → String → Bool)
    (srcNormalized : String) : List String → Bool → Bool
  | [], anySourceMatched => anySourceMatched
  | repoURL :: rest, anySourceMatched =>
    let normalized :=
      if isDenyPattern repoURL then "!" ++ norm (repoURL.drop 1) else norm repoURL
    let matched := globMatch m normalized srcNormalized true
    if matched then
      isSourcePermittedLoop norm m srcNormalized rest true
    else if isDenyPattern normalized then
      false
    else
      isSourcePermittedLoop norm m srcNormalized rest anySourceMatched

/-- From `IsSourcePermitted` in app_project_types.go. -/
def IsSourcePermitted (norm : String → String) (m : String → String → Bool)
    (sourceRepos : List String) (srcRepoURL : String) : Bool :=
  isSourcePermittedLoop norm m (norm srcRepoURL) sourceRepos false

theorem isDenyPattern_bang (t : String) : isDenyPattern ("!" ++ t) = true := by
  simp [isDenyPattern]

theorem bang_drop_one (t : String) : ("!" ++ t).drop 1 = t := by
  rw [String.drop_eq]
  apply String.ext
  simp

theorem isSourcePermittedLoop_deny_match (norm : String → String)
    (m : String → String → Bool) (s : String) :
    ∀ (repos : List String) (acc : Bool),
      (∃ e ∈ repos, isDenyPattern e = true ∧ m (norm (e.drop 1)) s = true) →
      isSourcePermittedLoop norm m s repos acc = false := by
  intro repos
  induction repos with
  | nil => intro acc h; simp at h
  | cons e0 rest ih =>
    intro acc h
    rcases h with ⟨e, he, hdeny, hmatch⟩
    rcases List.mem_cons.mp he with rfl | hrest
    · rw [isSourcePermittedLoop]
      simp only [hdeny, if_pos]
      have hm : globMatch m ("!" ++ norm (e.drop 1)) s true = false := by
        unfold globMatch
        rw [isDenyPattern_bang, bang_drop_one, hmatch]
        rfl
      rw [hm]
      simp [isDenyPattern_bang]
    · rw [isSourcePermittedLoop]
      by_cases hd0 : isDenyPattern e0 = true
      · simp only [hd0, if_pos]
        by_cases hm0 : globMatch m ("!" ++ norm (e0.drop 1)) s true = true
        · rw [hm0]
          simp only [if_pos]
          exact ih true ⟨e, hrest, hdeny, hmatch⟩
        · rw [Bool.not_eq_true] at hm0
          rw [hm0]
          simp [isDenyPattern_bang]
      · rw [Bool.not_eq_true] at hd0
        simp only [hd0, Bool.false_eq_true, if_neg, not_false_iff]
        by_cases hm0 : globMatch m (norm e0) s true = true
        · rw [hm0]
          simp only [if_pos]
          exact ih true ⟨e, hrest, hdeny, hmatch⟩
        · rw [Bool.not_eq_true] at hm0
          rw [hm0]
          simp only [Bool.false_eq_true, if_neg, not_false_iff]
          by_cases hdn : isDenyPattern (norm e0) = true
          · simp [hdn]
          · rw [Bool.not_eq_true] at hdn
            simp only [hdn, Bool.false_eq_true, if_neg, not_false_iff]
            exact ih acc ⟨e, hrest, hdeny, hmatch⟩

theorem isSourcePermittedLoop_all_deny_nomatch (norm : String → String)
    (m : String → String → Bool) (s : String) :
    ∀ (repos : List String) (acc : Bool),
      (∀ e ∈ repos, isDenyPattern e = true) →
      (∀ e ∈ repos, m (norm (e.drop 1)) s = false) →
      isSourcePermittedLoop norm m s repos acc = (acc || !repos.isEmpty) := by
  intro repos
  induction repos with
  | nil => intro acc _ _; simp [isSourcePermittedLoop]
  | cons e0 rest ih =>
    intro acc hdeny hnomatch
    rw [isSourcePermittedLoop]
    have hd0 : isDenyPattern e0 = true := hdeny e0 (List.mem_cons_self _ _)
    have hn0 : m (norm (e0.drop 1)) s = false := hnomatch e0 (List.mem_cons_self _ _)
    simp only [hd0, if_pos]
    have hm : globMatch m ("!" ++ norm (e0.drop 1)) s true = true := by
      unfold globMatch
      rw [isDenyPattern_bang, bang_drop_one, hn0]
      rfl
    rw [hm]
    simp only [if_pos]
    rw [ih true (fun e he => hdeny e (List.mem_cons_of_mem _ he))
        (fun e he => hnomatch e (List.mem_cons_of_mem _ he))]
    simp

/-- C8: `IsSourcePermitted` returns false whenever some entry of
`Spec.SourceRepos` is a deny pattern whose glob body matches the normalized
source URL, regardless of allow entries; and a deny entry whose body does not
match counts as a positive match, so a non-empty all-deny list permits every
source matching none of the deny bodies. -/
theorem isSourcePermitted_deny_semantics (norm : String → String)
    (m : String → String → Bool) (repos : List String) (src : String) :
    ((∃ e ∈ repos, isDenyPattern e = true ∧ m (norm (e.drop 1)) (norm src) = true) →
      IsSourcePermitted norm m repos src = false)
    ∧ (repos ≠ [] →
      (∀ e ∈ repos, isDenyPattern e = true) →
      (∀ e ∈ repos, m (norm (e.drop 1)) (norm src) = false) →
      IsSourcePermitted norm m repos src = true) := by
  constructor
  · intro h
    exact isSourcePermittedLoop_deny_match norm m (norm src) repos false h
  · intro hne hdeny hnomatch
    unfold IsSourcePermitted
    rw [isSourcePermittedLoop_all_deny_nomatch norm m (norm src) repos false hdeny hnomatch]
    simp [List.isEmpty_iff, hne]

/-- Witness for C8 at concrete inputs: the identity normalizer and literal
string-equality matching, with one deny entry. -/
theorem isSourcePermitted_deny_semantics_witness :
    ((∃ e ∈ ["!bad"], isDenyPattern e = true ∧
        (fun p v => p == v) ((fun u : String => u) (e.drop 1)) ((fun u : String => u) "bad") = true) →
      IsSourcePermitted (fun u => u) (fun p v => p == v) ["!bad"] "bad" = false)
    ∧ (["!bad"] ≠ ([] : List String) →
      (∀ e ∈ ["!bad"], isDenyPattern e = true) →
      (∀ e ∈ ["!bad"], (fun p v => p == v) ((fun u : String => u) (e.drop 1)) ((fun u : String => u) "bad") = false) →
      IsSourcePermitted (fun u => u) (fun p v => p == v) ["!bad"] "bad" = true) :=
  isSourcePermitted_deny_semantics (fun u => u) (fun p v => p == v) ["!bad"] "bad"

/-- A Kubernetes group/kind pair, as `metav1.GroupKind`. -/
structure GroupKind where
  group : String
  kind : String
deriving DecidableEq, Repr

/-- The four resource white/black lists of `AppProjectSpec` used by
`IsGroupKindPermitted`. Go nil slices are `none`; non-nil slices are `some`. -/
structure ResourceListsSpec where
  clusterResourceWhitelist : Option (List GroupKind)
  clusterResourceBlacklist : Option (List GroupKind)
  namespaceResourceWhitelist : Option (List GroupKind)
  namespaceResourceBlacklist : Option (List GroupKind)
deriving Repr

/-- From `IsGroupKindPermitted` in app_project_types.go. The external
`isResourceInList` (glob matching on group and kind) is the abstract parameter
`inList`. Go `x == nil` is `Option.isNone`; Go `len(x) != 0` on a possibly-nil
slice is `!(x.getD []).isEmpty`. -/
def IsGroupKindPermitted (inList : GroupKind → List GroupKind → Bool)
    (spec : ResourceListsSpec) (gk : GroupKind) (namespaced : Bool) : Bool :=
  if namespaced then
    let namespaceWhitelist := spec.namespaceResourceWhitelist
    let namespaceBlacklist := spec.namespaceResourceBlacklist
    let isWhiteListed := namespaceWhitelist.isNone ||
      (!(namespaceWhitelist.getD []).isEmpty && inList gk (namespaceWhitelist.getD []))
    let isBlackListed :=
      !(namespaceBlacklist.getD []).isEmpty && inList gk (namespaceBlacklist.getD [])
    isWhiteListed && !isBlackListed
  else
    let clusterWhitelist := spec.clusterResourceWhitelist
    let clusterBlacklist := spec.clusterResourceBlacklist
    let isWhiteListed :=
      !(clusterWhitelist.getD []).isEmpty && inList gk (clusterWhitelist.getD [])
    let isBlackListed :=
      !(clusterBlacklist.getD []).isEmpty && inList gk (clusterBlacklist.getD [])
    isWhiteListed && !isBlackListed

/-- C9: `IsGroupKindPermitted` distinguishes nil from empty whitelists: a nil
namespace whitelist permits everything not blacklisted, an empty non-nil
namespace whitelist permits nothing, and a nil or empty cluster whitelist
permits nothing cluster-scoped. -/
theorem isGroupKindPermitted_nil_empty_asymmetry
    (inList : GroupKind → List GroupKind → Bool) (spec : ResourceListsSpec)
    (gk : GroupKind) :
    (spec.namespaceResourceWhitelist = none →
      IsGroupKindPermitted inList spec gk true =
        !(!(spec.namespaceResourceBlacklist.getD []).isEmpty &&
          inList gk (spec.namespaceResourceBlacklist.getD [])))
    ∧ (spec.namespaceResourceWhitelist = some [] →
      IsGroupKindPermitted inList spec gk true = false)
    ∧ ((spec.clusterResourceWhitelist = none ∨ spec.clusterResourceWhitelist = some []) →
      IsGroupKindPermitted inList spec gk false = false) := by
  refine ⟨?_, ?_, ?_⟩
  · intro h
    simp [IsGroupKindPermitted, h]
  · intro h
    simp [IsGroupKindPermitted, h]
  · intro h
    rcases h with h | h <;> simp [IsGroupKindPermitted, h]

/-- Witness for C9 at a concrete project: nil namespace whitelist with a
blacklisted kind, empty namespace whitelist, and nil cluster whitelist. -/
theorem isGroupKindPermitted_nil_empty_asymmetry_witness :
    let spec : ResourceListsSpec :=
      { clusterResourceWhitelist := none
        clusterResourceBlacklist := none
        namespaceResourceWhitelist := none
        namespaceResourceBlacklist := some [⟨"apps", "Deployment"⟩] }
    let inList : GroupKind → List GroupKind → Bool := fun gk l => l.contains gk
    (spec.namespaceResourceWhitelist = none →
      IsGroupKindPermitted inList spec ⟨"apps", "Deployment"⟩ true =
        !(!(spec.namespaceResourceBlacklist.getD []).isEmpty &&
          inList ⟨"apps", "Deployment"⟩ (spec.namespaceResourceBlacklist.getD [])))
    ∧ (spec.namespaceResourceWhitelist = some [] →
      IsGroupKindPermitted inList spec ⟨"apps", "Deployment"⟩ true = false)
    ∧ ((spec.clusterResourceWhitelist = none ∨ spec.clusterResourceWhitelist = some []) →
      IsGroupKindPermitted inList spec ⟨"apps", "Deployment"⟩ false = false) :=
  isGroupKindPermitted_nil_empty_asymmetry _ _ _

/-- A JWT token as in `JWTToken` (issuedAt/expiresAt Unix seconds, id). -/
structure JWTToken where
  issuedAt : Int
  expiresAt : Int
  id : String
deriving DecidableEq, Repr

/-- A project role, keeping only the fields `NormalizeJWTTokens` touches. -/
structure ProjectRole where
  name : String
  jwtTokens : List JWTToken
deriving DecidableEq, Repr

/-- The `AppProject` spec/status slice relevant to JWT-token normalization.
`jwtTokensByRole` embeds the Go map `Status.JWTTokensByRole` as an
insertion-ordered association list; `none` is a nil map. -/
structure AppProjectJWT where
  roles : List ProjectRole
  jwtTokensByRole : Option (List (String × List JWTToken))
deriving DecidableEq, Repr

/-- Go map read `m[k].Items` (zero value `[]` when the key or map is absent). -/
def mapGet (m : Option (List (String × List JWTToken))) (k : String) : List JWTToken :=
  match m with
  | none => []
  | some l => (((l.find? (fun p => p.1 == k)).map Prod.snd)).getD []

/-- Go map write `m[k] = v`, overwriting in place or appending a new entry. -/
def mapSet (m : Option (List (String × List JWTToken))) (k : String)
    (v : List JWTToken) : Option (List (String × List JWTToken)) :=
  match m with
  | none => some [(k, v)]
  | some l =>
    if l.any (fun p => p.1 == k) then
      some (l.map (fun p => if p.1 == k then (k, v) else p))
    else
      some (l ++ [(k, v)])

/-- Whether the Go map has an entry for `k`. -/
def mapHasKey (m : Option (List (String × List JWTToken))) (k : String) : Bool :=
  match m with
  | none => false
  | some l => l.any (fun p => p.1 == k)

/-- From `NormalizeJWTTokens`: an empty token ID is replaced by
`strconv.FormatInt(token.IssuedAt, 10)`. -/
def fillTokenID (t : JWTToken) : JWTToken :=
  if t.id = "" then { t with id := toString t.issuedAt } else t

/-- One write into the Go `tokensMap` of `jwtTokensCombine`: keyed by
`token.ID`, the last write for an ID wins. -/
def tokensMapInsert (m : List (String × JWTToken)) (t : JWTToken) :
    List (String × JWTToken) :=
  if m.any (fun p => p.1 == t.id) then
    m.map (fun p => if p.1 == t.id then (p.1, t) else p)
  else
    m ++ [(t.id, t)]

/-- Insert into a list kept sorted by `IssuedAt` descending (the comparator of
the `sort.Slice` calls in app_project_types.go). -/
def insertTokenDesc (t : JWTToken) : List JWTToken → List JWTToken
  | [] => [t]
  | u :: us => if t.issuedAt > u.issuedAt then t :: u :: us else u :: insertTokenDesc t us

/-- Sort by `IssuedAt` descending, as `sort.Slice(tokens, iat[i] > iat[j])`. -/
def sortTokensDesc (l : List JWTToken) : List JWTToken :=
  l.foldr insertTokenDesc []

/-- From `jwtTokensCombine` in app_project_types.go: dedupe
`tokens1 ++ tokens2` by ID (later wins), then sort by `IssuedAt` descending. -/
def jwtTokensCombine (tokens1 tokens2 : List JWTToken) : List JWTToken :=
  sortTokensDesc (((tokens1 ++ tokens2).foldl tokensMapInsert []).map Prod.snd)

/-- The per-role loop of `syncJWTTokenBetweenStatusAndSpec`, threading the
status map and the `needSync` flag and rebuilding the roles list. -/
def syncJWTTokensLoop :
    List ProjectRole → Option (List (String × List JWTToken)) → Bool →
    List ProjectRole × Option (List (String × List JWTToken)) × Bool
  | [], status, needSync => ([], status, needSync)
  | role :: rest, status, needSync =>
    let tokensInSpec := role.jwtTokens
    let status1 := if status.isNone then some [] else status
    let tokensInStatus := mapGet status role.name
    let tokens := jwtTokensCombine tokensInStatus tokensInSpec
    let needSync1 := needSync ||
      !(tokens == sortTokensDesc tokensInSpec && tokens == sortTokensDesc tokensInStatus)
    let out := syncJWTTokensLoop rest (mapSet status1 role.name tokens) needSync1
    ({ role with jwtTokens := tokens } :: out.1, out.2.1, out.2.2)

/-- From `syncJWTTokenBetweenStatusAndSpec`: run the role loop, then delete
status entries whose role name is absent from the spec roles. -/
def syncJWTTokenBetweenStatusAndSpec (proj : AppProjectJWT) : AppProjectJWT × Bool :=
  let out := syncJWTTokensLoop proj.roles proj.jwtTokensByRole false
  let roleNames := proj.roles.map (fun r => r.name)
  match out.2.1 with
  | none => ({ roles := out.1, jwtTokensByRole := none }, out.2.2)
  | some l =>
    ({ roles := out.1,
       jwtTokensByRole := some (l.filter (fun p => roleNames.contains p.1)) },
      out.2.2 || l.any (fun p => !roleNames.contains p.1))

/-- The ID-filling passes of `NormalizeJWTTokens`: empty token IDs in both the
spec roles and the status map are replaced by the decimal `IssuedAt`. -/
def fillProject (proj : AppProjectJWT) : AppProjectJWT :=
  { roles := proj.roles.map (fun r => { r with jwtTokens := r.jwtTokens.map fillTokenID })
    jwtTokensByRole := proj.jwtTokensByRole.map
      (fun l => l.map (fun p => (p.1, p.2.map fillTokenID))) }

/-- From `NormalizeJWTTokens` in app_project_types.go: fill empty token IDs in
spec and status, then sync spec and status token lists. Returns the updated
project and the `needNormalize || needSync` flag. -/
def NormalizeJWTTokens (proj : AppProjectJWT) : AppProjectJWT × Bool :=
  let needNormalize :=
    proj.roles.any (fun r => r.jwtTokens.any (fun t => t.id == "")) ||
      (match proj.jwtTokensByRole with
       | none => false
       | some l => l.any (fun p => p.2.any (fun t => t.id == "")))
  let out := syncJWTTokenBetweenStatusAndSpec (fillProject proj)
  (out.1, needNormalize || out.2)

theorem mapGet_none (k : String) : mapGet none k = [] := rfl

theorem mapGet_some_empty (k : String) : mapGet (some []) k = [] := rfl

theorem mapGet_statusInit (m : Option (List (String × List JWTToken))) (k : String) :
    mapGet (if m.isNone then some [] else m) k = mapGet m k := by
  cases m <;> rfl

theorem find?_overwrite (k k' : String) (v : List JWTToken) (l : List (String × List JWTToken)) :
    List.find? (fun p => p.1 == k') (l.map (fun p => if p.1 == k then (k, v) else p)) =
      if k' = k then (List.find? (fun p => p.1 == k) l).map (fun _ => (k, v))
      else List.find? (fun p => p.1 == k') l := by
  induction l with
  | nil => by_cases h : k' = k <;> simp [h]
  | cons p rest ih =>
    rw [List.map_cons]
    by_cases hpk : p.1 = k
    · have hcond : ((p.1 == k) = true) := by simp [hpk]
      rw [if_pos hcond]
      by_cases h : k' = k
      · subst h
        rw [if_pos rfl]
        have e1 : List.find? (fun q : String × List JWTToken => q.1 == k')
            ((k', v) :: rest.map (fun q => if q.1 == k' then (k', v) else q)) = some (k', v) :=
          List.find?_cons_of_pos _ (by simp)
        have e2 : List.find? (fun q : String × List JWTToken => q.1 == k') (p :: rest) = some p :=
          List.find?_cons_of_pos _ (by simp [hpk])
        rw [e1, e2]
        rfl
      · rw [if_neg h]
        have e1 : List.find? (fun q : String × List JWTToken => q.1 == k')
            ((k, v) :: rest.map (fun q => if q.1 == k then (k, v) else q)) =
            List.find? (fun q : String × List JWTToken => q.1 == k')
              (rest.map (fun q => if q.1 == k then (k, v) else q)) :=
          List.find?_cons_of_neg _ (by simp [Ne.symm h])
        have e2 : List.find? (fun q : String × List JWTToken => q.1 == k') (p :: rest) =
            List.find? (fun q : String × List JWTToken => q.1 == k') rest :=
          List.find?_cons_of_neg _ (by simp [hpk, Ne.symm h])
        rw [e1, e2, ih, if_neg h]
    · have hcond : ¬((p.1 == k) = true) := by simp [hpk]
      rw [if_neg hcond]
      by_cases h : k' = k
      · subst h
        rw [if_pos rfl]
        have e1 : List.find? (fun q : String × List JWTToken => q.1 == k')
            (p :: rest.map (fun q => if q.1 == k' then (k', v) else q)) =
            List.find? (fun q : String × List JWTToken => q.1 == k')
              (rest.map (fun q => if q.1 == k' then (k', v) else q)) :=
          List.find?_cons_of_neg _ (by simp [hpk])
        have e2 : List.find? (fun q : String × List JWTToken => q.1 == k') (p :: rest) =
            List.find? (fun q : String × List JWTToken => q.1 == k') rest :=
          List.find?_cons_of_neg _ (by simp [hpk])
        rw [e1, e2, ih, if_pos rfl]
      · rw [if_neg h]
        by_cases hq : p.1 = k'
        · have e1 : List.find? (fun q : String × List JWTToken => q.1 == k')
              (p :: rest.map (fun q => if q.1 == k then (k, v) else q)) = some p :=
            List.find?_cons_of_pos _ (by simp [hq])
          have e2 : List.find? (fun q : String × List JWTToken => q.1 == k') (p :: rest) = some p :=
            List.find?_cons_of_pos _ (by simp [hq])
          rw [e1, e2]
        · have e1 : List.find? (fun q : String × List JWTToken => q.1 == k')
              (p :: rest.map (fun q => if q.1 == k then (k, v) else q)) =
              List.find? (fun q : String × List JWTToken => q.1 == k')
                (rest.map (fun q => if q.1 == k then (k, v) else q)) :=
            List.find?_cons_of_neg _ (by simp [hq])
          have e2 : List.find? (fun q : String × List JWTToken => q.1 == k') (p :: rest) =
              List.find? (fun q : String × List JWTToken => q.1 == k') rest :=
            List.find?_cons_of_neg _ (by simp [hq])
          rw [e1, e2, ih, if_neg h]

theorem mapGet_mapSet_self (m : Option (List (String × List JWTToken)))
    (k : String) (v : List JWTToken) : mapGet (mapSet m k v) k = v := by
  cases m with
  | none => simp [mapSet, mapGet, List.find?]
  | some l =>
    rw [mapSet]
    by_cases h : l.any (fun p => p.1 == k) = true
    · rw [if_pos h]
      simp only [mapGet, find?_overwrite, if_pos rfl]
      cases hfind : List.find? (fun p => p.1 == k) l with
      | none =>
        rw [List.find?_eq_none] at hfind
        rcases List.any_eq_true.mp h with ⟨p, hp, hpk⟩
        exact absurd hpk (hfind p hp)
      | some r => rfl
    · rw [if_neg h]
      simp only [mapGet, List.find?_append]
      have hnone : List.find? (fun p => p.1 == k) l = none := by
        rw [List.find?_eq_none]
        intro x hx hpx
        exact h (List.any_eq_true.mpr ⟨x, hx, hpx⟩)
      rw [hnone]
      simp [List.find?]

theorem mapGet_mapSet_ne (m : Option (List (String × List JWTToken)))
    (k k' : String) (v : List JWTToken) (hne : k' ≠ k) :
    mapGet (mapSet m k v) k' = mapGet m k' := by
  have hbeq : (k == k') = false := by
    rw [beq_eq_false_iff_ne]
    exact fun h => hne h.symm
  cases m with
  | none => simp [mapSet, mapGet, List.find?, hbeq]
  | some l =>
    rw [mapSet]
    by_cases h : l.any (fun p => p.1 == k) = true
    · rw [if_pos h]
      simp only [mapGet, find?_overwrite, if_neg hne]
    · rw [if_neg h]
      simp only [mapGet, List.find?_append]
      have : List.find? (fun p => p.1 == k') [(k, v)] = none := by
        simp [List.find?, hbeq]
      rw [this]
      simp

theorem insertTokenDesc_perm (t : JWTToken) (l : List JWTToken) :
    (insertTokenDesc t l).Perm (t :: l) := by
  induction l with
  | nil => exact List.Perm.refl _
  | cons u us ih =>
    rw [insertTokenDesc]
    by_cases h : t.issuedAt > u.issuedAt
    · rw [if_pos h]
    · rw [if_neg h]
      exact List.Perm.trans (ih.cons u) (List.Perm.swap t u us)

theorem sortTokensDesc_perm (l : List JWTToken) : (sortTokensDesc l).Perm l := by
  induction l with
  | nil => exact List.Perm.refl _
  | cons t ts ih =>
    rw [sortTokensDesc, List.foldr_cons]
    exact List.Perm.trans (insertTokenDesc_perm t _) (ih.cons t)

theorem insertTokenDesc_sorted (t : JWTToken) (l : List JWTToken)
    (h : l.Pairwise (fun a b => b.issuedAt ≤ a.issuedAt)) :
    (insertTokenDesc t l).Pairwise (fun a b => b.issuedAt ≤ a.issuedAt) := by
  induction l with
  | nil => simp [insertTokenDesc]
  | cons u us ih =>
    rw [insertTokenDesc]
    rcases List.pairwise_cons.mp h with ⟨hu, hus⟩
    by_cases hgt : t.issuedAt > u.issuedAt
    · rw [if_pos hgt]
      refine List.pairwise_cons.mpr ⟨?_, h⟩
      intro b hb
      rcases List.mem_cons.mp hb with rfl | hb'
      · exact le_of_lt hgt
      · exact le_trans (hu b hb') (le_of_lt hgt)
    · rw [if_neg hgt]
      refine List.pairwise_cons.mpr ⟨?_, ih hus⟩
      intro b hb
      have hmem := (insertTokenDesc_perm t us).mem_iff.mp hb
      rcases List.mem_cons.mp hmem with rfl | hb'
      · exact le_of_not_lt hgt
      · exact hu b hb'

theorem sortTokensDesc_sorted (l : List JWTToken) :
    (sortTokensDesc l).Pairwise (fun a b => b.issuedAt ≤ a.issuedAt) := by
  induction l with
  | nil => simp [sortTokensDesc]
  | cons t ts ih =>
    rw [sortTokensDesc, List.foldr_cons]
    exact insertTokenDesc_sorted t _ ih

theorem tokensMapInsert_keys (m : List (String × JWTToken)) (t : JWTToken) :
    (tokensMapInsert m t).map Prod.fst =
      if m.any (fun p => p.1 == t.id) then m.map Prod.fst
      else m.map Prod.fst ++ [t.id] := by
  rw [tokensMapInsert]
  by_cases h : m.any (fun p => p.1 == t.id) = true
  · rw [if_pos h, if_pos h, List.map_map]
    apply List.map_congr_left
    intro p _
    simp only [Function.comp]
    split <;> rfl
  · rw [if_neg h, if_neg h, List.map_append]
    rfl

theorem tokensMapInsert_keys_nodup (m : List (String × JWTToken)) (t : JWTToken)
    (h : (m.map Prod.fst).Nodup) : ((tokensMapInsert m t).map Prod.fst).Nodup := by
  rw [tokensMapInsert_keys]
  by_cases hc : m.any (fun p => p.1 == t.id) = true
  · rw [if_pos hc]; exact h
  · rw [if_neg hc]
    refine List.Nodup.append h (List.nodup_singleton _) ?_
    intro k hk hk'
    rcases List.mem_map.mp hk with ⟨p, hp, rfl⟩
    have heq : p.1 = t.id := List.mem_singleton.mp hk'
    rw [Bool.not_eq_true, List.any_eq_false] at hc
    exact absurd (by simp [heq]) (hc p hp)

theorem tokensMapInsert_entry_id (m : List (String × JWTToken)) (t : JWTToken)
    (h : ∀ p ∈ m, (p : String × JWTToken).2.id = p.1) :
    ∀ p ∈ tokensMapInsert m t, (p : String × JWTToken).2.id = p.1 := by
  intro p hp
  rw [tokensMapInsert] at hp
  by_cases hc : m.any (fun p => p.1 == t.id) = true
  · rw [if_pos hc] at hp
    rcases List.mem_map.mp hp with ⟨q, hq, rfl⟩
    by_cases hqt : (q.1 == t.id) = true
    · rw [if_pos hqt]
      exact (eq_of_beq hqt).symm
    · rw [if_neg hqt]
      exact h q hq
  · rw [if_neg hc] at hp
    rcases List.mem_append.mp hp with hp' | hp'
    · exact h p hp'
    · rcases List.mem_singleton.mp hp' with rfl
      rfl

theorem tokensMapInsert_values_subset (m : List (String × JWTToken)) (t : JWTToken)
    (v : JWTToken) (hv : v ∈ (tokensMapInsert m t).map Prod.snd) :
    v ∈ m.map Prod.snd ∨ v = t := by
  rw [tokensMapInsert] at hv
  by_cases hc : m.any (fun p => p.1 == t.id) = true
  · rw [if_pos hc] at hv
    rcases List.mem_map.mp hv with ⟨q, hq, hqv⟩
    rcases List.mem_map.mp hq with ⟨r, hr, rfl⟩
    by_cases hrt : (r.1 == t.id) = true
    · rw [if_pos hrt] at hqv
      exact Or.inr hqv.symm
    · rw [if_neg hrt] at hqv
      exact Or.inl (hqv ▸ List.mem_map.mpr ⟨r, hr, rfl⟩)
  · rw [if_neg hc, List.map_append] at hv
    rcases List.mem_append.mp hv with hv' | hv'
    · exact Or.inl hv'
    · exact Or.inr (List.mem_singleton.mp hv')

theorem tokensMapInsert_keys_mono (m : List (String × JWTToken)) (t : JWTToken)
    (k : String) (hk : k ∈ m.map Prod.fst) : k ∈ (tokensMapInsert m t).map Prod.fst := by
  rw [tokensMapInsert_keys]
  by_cases hc : m.any (fun p => p.1 == t.id) = true
  · rw [if_pos hc]; exact hk
  · rw [if_neg hc]; exact List.mem_append_left _ hk

theorem tokensMapInsert_key_self (m : List (String × JWTToken)) (t : JWTToken) :
    t.id ∈ (tokensMapInsert m t).map Prod.fst := by
  rw [tokensMapInsert_keys]
  by_cases hc : m.any (fun p => p.1 == t.id) = true
  · rw [if_pos hc]
    rcases List.any_eq_true.mp hc with ⟨p, hp, hpt⟩
    exact (eq_of_beq hpt) ▸ List.mem_map.mpr ⟨p, hp, rfl⟩
  · rw [if_neg hc]
    exact List.mem_append_right _ (List.mem_singleton.mpr rfl)

theorem foldl_insert_keys_nodup (ts : List JWTToken) :
    ∀ m : List (String × JWTToken), (m.map Prod.fst).Nodup →
      ((ts.foldl tokensMapInsert m).map Prod.fst).Nodup := by
  induction ts with
  | nil => intro m h; exact h
  | cons t rest ih =>
    intro m h
    rw [List.foldl_cons]
    exact ih _ (tokensMapInsert_keys_nodup m t h)

theorem foldl_insert_entry_id (ts : List JWTToken) :
    ∀ m : List (String × JWTToken), (∀ p ∈ m, (p : String × JWTToken).2.id = p.1) →
      ∀ p ∈ ts.foldl tokensMapInsert m, (p : String × JWTToken).2.id = p.1 := by
  induction ts with
  | nil => intro m h; exact h
  | cons t rest ih =>
    intro m h
    rw [List.foldl_cons]
    exact ih _ (tokensMapInsert_entry_id m t h)

theorem foldl_insert_values_subset (ts : List JWTToken) :
    ∀ (m : List (String × JWTToken)) (v : JWTToken),
      v ∈ (ts.foldl tokensMapInsert m).map Prod.snd → v ∈ m.map Prod.snd ∨ v ∈ ts := by
  induction ts with
  | nil => intro m v hv; exact Or.inl hv
  | cons t rest ih =>
    intro m v hv
    rw [List.foldl_cons] at hv
    rcases ih _ v hv with hv' | hv'
    · rcases tokensMapInsert_values_subset m t v hv' with hv'' | rfl
      · exact Or.inl hv''
      · exact Or.inr (List.mem_cons_self _ _)
    · exact Or.inr (List.mem_cons_of_mem _ hv')

theorem foldl_insert_keys_mono (ts : List JWTToken) :
    ∀ (m : List (String × JWTToken)) (k : String),
      k ∈ m.map Prod.fst → k ∈ (ts.foldl tokensMapInsert m).map Prod.fst := by
  induction ts with
  | nil => intro m k hk; exact hk
  | cons t rest ih =>
    intro m k hk
    rw [List.foldl_cons]
    exact ih _ k (tokensMapInsert_keys_mono m t k hk)

theorem foldl_insert_id_mem (ts : List JWTToken) :
    ∀ (m : List (String × JWTToken)) (t : JWTToken), t ∈ ts →
      t.id ∈ (ts.foldl tokensMapInsert m).map Prod.fst := by
  induction ts with
  | nil => intro m t ht; exact absurd ht (List.not_mem_nil _)
  | cons u rest ih =>
    intro m t ht
    rw [List.foldl_cons]
    rcases List.mem_cons.mp ht with rfl | ht'
    · exact foldl_insert_keys_mono rest _ t.id (tokensMapInsert_key_self m t)
    · exact ih _ t ht'

theorem jwtTokensCombine_sorted (t1 t2 : List JWTToken) :
    (jwtTokensCombine t1 t2).Pairwise (fun a b => b.issuedAt ≤ a.issuedAt) :=
  sortTokensDesc_sorted _

theorem jwtTokensCombine_ids_nodup (t1 t2 : List JWTToken) :
    ((jwtTokensCombine t1 t2).map (fun t => t.id)).Nodup := by
  rw [jwtTokensCombine]
  have hperm : ((sortTokensDesc (((t1 ++ t2).foldl tokensMapInsert []).map Prod.snd)).map
      (fun t => t.id)).Perm ((((t1 ++ t2).foldl tokensMapInsert []).map Prod.snd).map
      (fun t => t.id)) :=
    (sortTokensDesc_perm _).map _
  rw [hperm.nodup_iff]
  rw [List.map_map]
  have hid := foldl_insert_entry_id (t1 ++ t2) [] (by simp)
  have hkeys := foldl_insert_keys_nodup (t1 ++ t2) [] (by simp)
  have : ((t1 ++ t2).foldl tokensMapInsert []).map ((fun t => t.id) ∘ Prod.snd) =
      ((t1 ++ t2).foldl tokensMapInsert []).map Prod.fst := by
    apply List.map_congr_left
    intro p hp
    exact hid p hp
  rw [this]
  exact hkeys

theorem jwtTokensCombine_subset (t1 t2 : List JWTToken) (t : JWTToken)
    (ht : t ∈ jwtTokensCombine t1 t2) : t ∈ t1 ++ t2 := by
  rw [jwtTokensCombine] at ht
  have := (sortTokensDesc_perm _).mem_iff.mp ht
  rcases foldl_insert_values_subset (t1 ++ t2) [] t this with h | h
  · simp at h
  · exact h

theorem jwtTokensCombine_ids_covered (t1 t2 : List JWTToken) (t : JWTToken)
    (ht : t ∈ t1 ++ t2) : ∃ u ∈ jwtTokensCombine t1 t2, u.id = t.id := by
  have hkey : t.id ∈ ((t1 ++ t2).foldl tokensMapInsert []).map Prod.fst :=
    foldl_insert_id_mem (t1 ++ t2) [] t ht
  rcases List.mem_map.mp hkey with ⟨p, hp, hpk⟩
  have hid := foldl_insert_entry_id (t1 ++ t2) [] (by simp) p hp
  refine ⟨p.2, ?_, by rw [hid, hpk]⟩
  rw [jwtTokensCombine]
  exact (sortTokensDesc_perm _).mem_iff.mpr (List.mem_map.mpr ⟨p, hp, rfl⟩)

theorem mapGet_mapSet_statusInit_self (m : Option (List (String × List JWTToken)))
    (k : String) (v : List JWTToken) :
    mapGet (mapSet (if m.isNone then some [] else m) k v) k = v := by
  cases m with
  | none =>
    simp only [Option.isNone_none, if_pos]
    exact mapGet_mapSet_self (some []) k v
  | some l =>
    simp only [Option.isNone_some, Bool.false_eq_true, if_neg, not_false_iff]
    exact mapGet_mapSet_self (some l) k v

theorem mapGet_mapSet_statusInit_ne (m : Option (List (String × List JWTToken)))
    (k k' : String) (v : List JWTToken) (hne : k' ≠ k) :
    mapGet (mapSet (if m.isNone then some [] else m) k v) k' = mapGet m k' := by
  cases m with
  | none =>
    simp only [Option.isNone_none, if_pos]
    rw [mapGet_mapSet_ne (some []) k k' v hne]
    rfl
  | some l =>
    simp only [Option.isNone_some, Bool.false_eq_true, if_neg, not_false_iff]
    exact mapGet_mapSet_ne (some l) k k' v hne

theorem syncLoop_roles (roles : List ProjectRole) :
    ∀ (status : Option (List (String × List JWTToken))) (b : Bool),
      (roles.map (fun r => r.name)).Nodup →
      (syncJWTTokensLoop roles status b).1 =
        roles.map (fun r =>
          { r with jwtTokens := jwtTokensCombine (mapGet status r.name) r.jwtTokens }) := by
  induction roles with
  | nil => intro status b _; rfl
  | cons r0 rest ih =>
    intro status b hnd
    rw [List.map_cons] at hnd
    rcases List.nodup_cons.mp hnd with ⟨hr0, hrest⟩
    rw [List.map_cons, syncJWTTokensLoop]
    simp only
    rw [ih _ _ hrest]
    congr 1
    apply List.map_congr_left
    intro r hr
    have hne : r.name ≠ r0.name := by
      intro heq
      exact hr0 (heq ▸ List.mem_map.mpr ⟨r, hr, rfl⟩)
    rw [mapGet_mapSet_statusInit_ne status r0.name r.name _ hne]

theorem syncLoop_status_absent (roles : List ProjectRole) :
    ∀ (status : Option (List (String × List JWTToken))) (b : Bool) (k : String),
      k ∉ roles.map (fun r => r.name) →
      mapGet (syncJWTTokensLoop roles status b).2.1 k = mapGet status k := by
  induction roles with
  | nil => intro status b k _; rfl
  | cons r0 rest ih =>
    intro status b k hk
    rw [List.map_cons, List.mem_cons] at hk
    push_neg at hk
    rw [syncJWTTokensLoop]
    simp only
    rw [ih _ _ k hk.2]
    exact mapGet_mapSet_statusInit_ne status r0.name k _ hk.1

theorem syncLoop_status_at (roles : List ProjectRole) :
    ∀ (status : Option (List (String × List JWTToken))) (b : Bool)
      (i : Nat) (hi : i < roles.length),
      (roles.map (fun r => r.name)).Nodup →
      mapGet (syncJWTTokensLoop roles status b).2.1 (roles.get ⟨i, hi⟩).name =
        jwtTokensCombine (mapGet status (roles.get ⟨i, hi⟩).name)
          (roles.get ⟨i, hi⟩).jwtTokens := by
  induction roles with
  | nil => intro status b i hi _; exact absurd hi (by simp)
  | cons r0 rest ih =>
    intro status b i hi hnd
    rw [List.map_cons] at hnd
    rcases List.nodup_cons.mp hnd with ⟨hr0, hrest⟩
    cases i with
    | zero =>
      rw [syncJWTTokensLoop]
      simp only [List.get]
      rw [syncLoop_status_absent rest _ _ r0.name hr0]
      exact mapGet_mapSet_statusInit_self status r0.name _
    | succ j =>
      rw [syncJWTTokensLoop]
      simp only [List.get]
      have hj : j < rest.length := Nat.lt_of_succ_lt_succ hi
      rw [ih _ _ j hj hrest]
      have hne : (rest.get ⟨j, hj⟩).name ≠ r0.name := by
        intro heq
        exact hr0 (heq ▸ List.mem_map.mpr ⟨rest.get ⟨j, hj⟩, List.get_mem rest j hj, rfl⟩)
      rw [mapGet_mapSet_statusInit_ne status r0.name _ _ hne]

theorem find?_filter_keep (names : List String) (k : String)
    (hk : names.contains k = true) (l : List (String × List JWTToken)) :
    List.find? (fun p => p.1 == k) (l.filter (fun p => names.contains p.1)) =
      List.find? (fun p => p.1 == k) l := by
  induction l with
  | nil => rfl
  | cons p rest ih =>
    by_cases hpk : p.1 = k
    · have hcp : names.contains p.1 = true := by rw [hpk]; exact hk
      rw [List.filter_cons, if_pos hcp]
      have e1 : List.find? (fun q : String × List JWTToken => q.1 == k)
          (p :: rest.filter (fun q => names.contains q.1)) = some p :=
        List.find?_cons_of_pos _ (by simp [hpk])
      have e2 : List.find? (fun q : String × List JWTToken => q.1 == k) (p :: rest) = some p :=
        List.find?_cons_of_pos _ (by simp [hpk])
      rw [e1, e2]
    · have e2 : List.find? (fun q : String × List JWTToken => q.1 == k) (p :: rest) =
          List.find? (fun q : String × List JWTToken => q.1 == k) rest :=
        List.find?_cons_of_neg _ (by simp [hpk])
      rw [List.filter_cons]
      by_cases hcp : names.contains p.1 = true
      · rw [if_pos hcp]
        have e1 : List.find? (fun q : String × List JWTToken => q.1 == k)
            (p :: rest.filter (fun q => names.contains q.1)) =
            List.find? (fun q : String × List JWTToken => q.1 == k)
              (rest.filter (fun q => names.contains q.1)) :=
          List.find?_cons_of_neg _ (by simp [hpk])
        rw [e1, e2, ih]
      · rw [if_neg hcp, e2, ih]

theorem mapGet_filter_keep (l : List (String × List JWTToken)) (names : List String)
    (k : String) (hk : names.contains k = true) :
    mapGet (some (l.filter (fun p => names.contains p.1))) k = mapGet (some l) k := by
  simp only [mapGet]
  rw [find?_filter_keep names k hk l]

theorem mapHasKey_filter (l : List (String × List JWTToken)) (names : List String)
    (k : String) :
    mapHasKey (some (l.filter (fun p => names.contains p.1))) k = true → k ∈ names := by
  intro h
  simp only [mapHasKey] at h
  rcases List.any_eq_true.mp h with ⟨p, hp, hpk⟩
  rcases List.mem_filter.mp hp with ⟨_, hcont⟩
  have heq : p.1 = k := eq_of_beq hpk
  rw [heq] at hcont
  rcases List.contains_iff_exists_mem_beq.mp hcont with ⟨a, ha, hab⟩
  exact (eq_of_beq hab) ▸ ha

theorem mapGet_fillStatus (m : Option (List (String × List JWTToken))) (k : String) :
    mapGet (m.map (fun l => l.map (fun p => (p.1, p.2.map fillTokenID)))) k =
      (mapGet m k).map fillTokenID := by
  cases m with
  | none => rfl
  | some l =>
    simp only [Option.map_some']
    induction l with
    | nil => rfl
    | cons p rest ih =>
      rw [List.map_cons]
      by_cases hpk : p.1 = k
      · have e1 : List.find? (fun q : String × List JWTToken => q.1 == k)
            ((p.1, p.2.map fillTokenID) :: rest.map (fun q => (q.1, q.2.map fillTokenID))) =
            some (p.1, p.2.map fillTokenID) :=
          List.find?_cons_of_pos _ (by simp [hpk])
        have e2 : List.find? (fun q : String × List JWTToken => q.1 == k) (p :: rest) = some p :=
          List.find?_cons_of_pos _ (by simp [hpk])
        simp only [mapGet, e1, e2]
        rfl
      · have e1 : List.find? (fun q : String × List JWTToken => q.1 == k)
            ((p.1, p.2.map fillTokenID) :: rest.map (fun q => (q.1, q.2.map fillTokenID))) =
            List.find? (fun q : String × List JWTToken => q.1 == k)
              (rest.map (fun q => (q.1, q.2.map fillTokenID))) :=
          List.find?_cons_of_neg _ (by simp [hpk])
        have e2 : List.find? (fun q : String × List JWTToken => q.1 == k) (p :: rest) =
            List.find? (fun q : String × List JWTToken => q.1 == k) rest :=
          List.find?_cons_of_neg _ (by simp [hpk])
        simp only [mapGet, e1, e2] at ih ⊢
        exact ih

theorem mapSet_isSome (m : Option (List (String × List JWTToken))) (k : String)
    (v : List JWTToken) : (mapSet m k v).isSome = true := by
  cases m with
  | none => rfl
  | some l =>
    rw [mapSet]
    split <;> rfl

theorem syncLoop_status_isSome (roles : List ProjectRole) :
    ∀ (status : Option (List (String × List JWTToken))) (b : Bool), roles ≠ [] →
      ((syncJWTTokensLoop roles status b).2.1).isSome = true := by
  induction roles with
  | nil => intro _ _ h; exact absurd rfl h
  | cons r0 rest ih =>
    intro status b _
    rw [syncJWTTokensLoop]
    simp only
    cases hrest : rest with
    | nil =>
      rw [syncJWTTokensLoop]
      exact mapSet_isSome _ _ _
    | cons a as =>
      rw [← hrest]
      exact ih _ _ (by rw [hrest]; simp)

theorem sync_roles_eq (proj : AppProjectJWT)
    (hnd : (proj.roles.map (fun r => r.name)).Nodup) :
    (syncJWTTokenBetweenStatusAndSpec proj).1.roles =
      proj.roles.map (fun r =>
        { r with jwtTokens := jwtTokensCombine (mapGet proj.jwtTokensByRole r.name) r.jwtTokens }) := by
  rw [syncJWTTokenBetweenStatusAndSpec]
  cases hst : (syncJWTTokensLoop proj.roles proj.jwtTokensByRole false).2.1 with
  | none => exact syncLoop_roles proj.roles _ false hnd
  | some l => exact syncLoop_roles proj.roles _ false hnd

theorem sync_status_at (proj : AppProjectJWT)
    (hnd : (proj.roles.map (fun r => r.name)).Nodup) (i : Nat) (hi : i < proj.roles.length) :
    mapGet (syncJWTTokenBetweenStatusAndSpec proj).1.jwtTokensByRole
        (proj.roles.get ⟨i, hi⟩).name =
      jwtTokensCombine (mapGet proj.jwtTokensByRole (proj.roles.get ⟨i, hi⟩).name)
        (proj.roles.get ⟨i, hi⟩).jwtTokens := by
  rw [syncJWTTokenBetweenStatusAndSpec]
  cases hst : (syncJWTTokensLoop proj.roles proj.jwtTokensByRole false).2.1 with
  | none =>
    exfalso
    have hne : proj.roles ≠ [] := by
      intro h
      rw [h] at hi
      exact absurd hi (by simp)
    have hsome := syncLoop_status_isSome proj.roles proj.jwtTokensByRole false hne
    rw [hst] at hsome
    exact absurd hsome (by simp)
  | some l =>
    have hmem : (proj.roles.get ⟨i, hi⟩).name ∈ proj.roles.map (fun r => r.name) :=
      List.mem_map.mpr ⟨_, List.get_mem _ i hi, rfl⟩
    have hcont : (proj.roles.map (fun r => r.name)).contains (proj.roles.get ⟨i, hi⟩).name = true :=
      List.contains_iff_exists_mem_beq.mpr ⟨_, hmem, by simp⟩
    have key := mapGet_filter_keep l (proj.roles.map (fun r => r.name))
      (proj.roles.get ⟨i, hi⟩).name hcont
    have h2 := syncLoop_status_at proj.roles proj.jwtTokensByRole false i hi hnd
    rw [hst] at h2
    exact key.trans h2

theorem sync_status_keys (proj : AppProjectJWT) (k : String)
    (hk : mapHasKey (syncJWTTokenBetweenStatusAndSpec proj).1.jwtTokensByRole k = true) :
    k ∈ proj.roles.map (fun r => r.name) := by
  rw [syncJWTTokenBetweenStatusAndSpec] at hk
  cases hst : (syncJWTTokensLoop proj.roles proj.jwtTokensByRole false).2.1 with
  | none =>
    rw [hst] at hk
    have hbad : mapHasKey (none : Option (List (String × List JWTToken))) k = true := hk
    simp [mapHasKey] at hbad
  | some l =>
    rw [hst] at hk
    have hgood : mapHasKey (some (l.filter
        (fun p => (proj.roles.map (fun r => r.name)).contains p.1))) k = true := hk
    exact mapHasKey_filter l (proj.roles.map (fun r => r.name)) k hgood

theorem fillProject_names (proj : AppProjectJWT) :
    (fillProject proj).roles.map (fun r => r.name) = proj.roles.map (fun r => r.name) := by
  rw [fillProject]
  simp only [List.map_map]
  apply List.map_congr_left
  intro r _
  rfl

/-- A project with two spec roles sharing the name "a", used to exhibit the
behaviour of `NormalizeJWTTokens` on duplicate role names. -/
def dupNameProject : AppProjectJWT :=
  { roles := [{ name := "a", jwtTokens := [{ issuedAt := 1, expiresAt := 0, id := "1" }] },
              { name := "a", jwtTokens := [{ issuedAt := 2, expiresAt := 0, id := "2" }] }],
    jwtTokensByRole := none }

/-- C10 counterexample: with two spec roles both named "a", after
`NormalizeJWTTokens` the first role keeps only its own combined list while the
status entry for "a" holds the second combination, so "spec tokens = status
items" fails for the first role. -/
theorem normalizeJWTTokens_dup_names_counterexample :
    ¬ (∀ (i : Nat) (hi : i < dupNameProject.roles.length)
        (hi2 : i < (NormalizeJWTTokens dupNameProject).1.roles.length),
        ((NormalizeJWTTokens dupNameProject).1.roles[i]).jwtTokens =
          mapGet (NormalizeJWTTokens dupNameProject).1.jwtTokensByRole
            ((NormalizeJWTTokens dupNameProject).1.roles[i]).name) := by
  intro h
  have h0 := h 0 (by decide) (by decide)
  revert h0
  decide

/-- C10 (amended): for an AppProject whose spec role names are pairwise
distinct, after `NormalizeJWTTokens` each role's spec token list and the status
entry of the same name are the same list, namely the union of the role's prior
(ID-normalized) spec and status tokens deduplicated by token ID — spec tokens
winning on collisions — and sorted by IssuedAt descending; and the status map
keeps no entry for a role name absent from the spec roles. -/
theorem normalizeJWTTokens_sync_spec (proj : AppProjectJWT)
    (hnd : (proj.roles.map (fun r => r.name)).Nodup) :
    (∀ (i : Nat) (hi : i < proj.roles.length)
        (hi2 : i < (NormalizeJWTTokens proj).1.roles.length),
      ((NormalizeJWTTokens proj).1.roles[i]).name = (proj.roles[i]).name
      ∧ ((NormalizeJWTTokens proj).1.roles[i]).jwtTokens =
          jwtTokensCombine
            ((mapGet proj.jwtTokensByRole (proj.roles[i]).name).map fillTokenID)
            ((proj.roles[i]).jwtTokens.map fillTokenID)
      ∧ mapGet (NormalizeJWTTokens proj).1.jwtTokensByRole (proj.roles[i]).name =
          ((NormalizeJWTTokens proj).1.roles[i]).jwtTokens
      ∧ (((NormalizeJWTTokens proj).1.roles[i]).jwtTokens).Pairwise
          (fun a b => b.issuedAt ≤ a.issuedAt)
      ∧ ((((NormalizeJWTTokens proj).1.roles[i]).jwtTokens).map (fun t => t.id)).Nodup
      ∧ (∀ t ∈ ((NormalizeJWTTokens proj).1.roles[i]).jwtTokens,
          t ∈ (mapGet proj.jwtTokensByRole (proj.roles[i]).name).map fillTokenID ++
            (proj.roles[i]).jwtTokens.map fillTokenID)
      ∧ (∀ t ∈ (mapGet proj.jwtTokensByRole (proj.roles[i]).name).map fillTokenID ++
            (proj.roles[i]).jwtTokens.map fillTokenID,
          ∃ u ∈ ((NormalizeJWTTokens proj).1.roles[i]).jwtTokens, u.id = t.id))
    ∧ (∀ k, mapHasKey (NormalizeJWTTokens proj).1.jwtTokensByRole k = true →
        k ∈ proj.roles.map (fun r => r.name)) := by
  have hnd1 : ((fillProject proj).roles.map (fun r => r.name)).Nodup := by
    rw [fillProject_names]
    exact hnd
  have hproj : (NormalizeJWTTokens proj).1 =
      (syncJWTTokenBetweenStatusAndSpec (fillProject proj)).1 := rfl
  have hroles : (NormalizeJWTTokens proj).1.roles =
      (fillProject proj).roles.map (fun r =>
        { r with jwtTokens :=
            jwtTokensCombine (mapGet (fillProject proj).jwtTokensByRole r.name) r.jwtTokens }) := by
    rw [hproj, sync_roles_eq _ hnd1]
  have hfr : (fillProject proj).roles =
      proj.roles.map (fun r => { r with jwtTokens := r.jwtTokens.map fillTokenID }) := rfl
  have hfs : (fillProject proj).jwtTokensByRole =
      proj.jwtTokensByRole.map (fun l => l.map (fun p => (p.1, p.2.map fillTokenID))) := rfl
  constructor
  · intro i hi hi2
    have hget : (NormalizeJWTTokens proj).1.roles[i] =
        { name := (proj.roles[i]).name
          jwtTokens := jwtTokensCombine
            ((mapGet proj.jwtTokensByRole (proj.roles[i]).name).map fillTokenID)
            ((proj.roles[i]).jwtTokens.map fillTokenID) } := by
      simp only [hroles, hfr, List.getElem_map, hfs, mapGet_fillStatus]
    have h2 : ((NormalizeJWTTokens proj).1.roles[i]).jwtTokens =
        jwtTokensCombine
          ((mapGet proj.jwtTokensByRole (proj.roles[i]).name).map fillTokenID)
          ((proj.roles[i]).jwtTokens.map fillTokenID) := by
      rw [hget]
    refine ⟨by rw [hget], h2, ?_, ?_, ?_, ?_, ?_⟩
    · have hi' : i < (fillProject proj).roles.length := by
        rw [hfr, List.length_map]
        exact hi
      have hg : (fillProject proj).roles.get ⟨i, hi'⟩ =
          { name := (proj.roles[i]).name
            jwtTokens := (proj.roles[i]).jwtTokens.map fillTokenID } := by
        simp only [List.get_eq_getElem, hfr, List.getElem_map]
      have hstat := sync_status_at (fillProject proj) hnd1 i hi'
      rw [hg] at hstat
      have hcast : mapGet (syncJWTTokenBetweenStatusAndSpec (fillProject proj)).1.jwtTokensByRole
          (proj.roles[i]).name =
          jwtTokensCombine (mapGet (fillProject proj).jwtTokensByRole (proj.roles[i]).name)
            ((proj.roles[i]).jwtTokens.map fillTokenID) := hstat
      rw [hfs, mapGet_fillStatus] at hcast
      have hstat2 : mapGet (NormalizeJWTTokens proj).1.jwtTokensByRole (proj.roles[i]).name =
          jwtTokensCombine
            ((mapGet proj.jwtTokensByRole (proj.roles[i]).name).map fillTokenID)
            ((proj.roles[i]).jwtTokens.map fillTokenID) := hcast
      exact hstat2.trans h2.symm
    · rw [h2]
      exact jwtTokensCombine_sorted _ _
    · rw [h2]
      exact jwtTokensCombine_ids_nodup _ _
    · intro t ht
      rw [h2] at ht
      exact jwtTokensCombine_subset _ _ t ht
    · intro t ht
      rw [h2]
      exact jwtTokensCombine_ids_covered _ _ t ht
  · intro k hk
    rw [hproj] at hk
    have hmem := sync_status_keys (fillProject proj) k hk
    rw [fillProject_names] at hmem
    exact hmem

/-- Witness project for the amended C10: one role "a" with an ID-less spec
token, a status entry for "a", and a stale status entry "old". -/
def syncWitnessProject : AppProjectJWT :=
  { roles := [{ name := "a", jwtTokens := [{ issuedAt := 5, expiresAt := 0, id := "" }] }],
    jwtTokensByRole := some [("a", [{ issuedAt := 7, expiresAt := 0, id := "x" }]),
                             ("old", [{ issuedAt := 1, expiresAt := 0, id := "y" }])] }

/-- Witness for the amended C10 at `syncWitnessProject`: the combined-list
equation and the spec/status agreement for its single role. -/
theorem normalizeJWTTokens_sync_spec_witness :
    (((NormalizeJWTTokens syncWitnessProject).1.roles.get
        ⟨0, by decide⟩).jwtTokens =
      jwtTokensCombine
        ((mapGet syncWitnessProject.jwtTokensByRole
            ((syncWitnessProject.roles.get ⟨0, by decide⟩).name)).map fillTokenID)
        (((syncWitnessProject.roles.get ⟨0, by decide⟩).jwtTokens).map fillTokenID))
    ∧ mapGet (NormalizeJWTTokens syncWitnessProject).1.jwtTokensByRole
        ((syncWitnessProject.roles.get ⟨0, by decide⟩).name) =
      ((NormalizeJWTTokens syncWitnessProject).1.roles.get ⟨0, by decide⟩).jwtTokens := by
  have h := (normalizeJWTTokens_sync_spec syncWitnessProject (by decide)).1 0
    (by decide) (by decide)
  exact ⟨h.2.1, h.2.2.1⟩

/-- The cached manifest entry of the reposerver cache, as used by
`runManifestGenAsync` and `getManifestCacheEntry` in the repository.go embedded
in the source tree (the cache package itself is absent; field names follow
those uses): a manifest response and the four failure fields, sharing one key. -/
structure CachedManifestResponse where
  manifestResponse : Option (List String)
  mostRecentError : String
  firstFailureTimestamp : Nat
  numberOfConsecutiveFailures : Nat
  numberOfCachedResponsesReturned : Nat
deriving DecidableEq, Repr

/-- The three failure-backoff constants of `RepoServerInitConstants` in the
embedded repository.go. -/
structure RepoServerInitConstants where
  pauseGenerationAfterFailedGenerationAttempts : Nat
  pauseGenerationOnFailureForMinutes : Nat
  pauseGenerationOnFailureForRequests : Nat
deriving DecidableEq, Repr

/-- From `getManifestCacheEntry` in the embedded repository.go: the cache probe
for one key. Returns the Go results — the `ok` flag, the cached manifest
response, and the cached error message — together with the entry left at the
key (`none` after `DeleteManifests`). `firstInvocation` is true for the
pre-lock probe; only that probe increments the served-response counter. The
time exit fires only when `PauseGenerationOnFailureForMinutes > 0`, and the
count exit only when `PauseGenerationOnFailureForRequests > 0` and the counter
is positive. -/
def getManifestCacheEntry (s : RepoServerInitConstants) (now : Nat)
    (firstInvocation : Bool) (e : Option CachedManifestResponse) :
    (Bool × Option (List String) × Option String) × Option CachedManifestResponse :=
  match e with
  | none => ((false, none, none), none)
  | some res =>
    if 0 < s.pauseGenerationAfterFailedGenerationAttempts ∧
        0 < res.firstFailureTimestamp then
      if s.pauseGenerationAfterFailedGenerationAttempts ≤
          res.numberOfConsecutiveFailures then
        if 0 < s.pauseGenerationOnFailureForMinutes ∧
            s.pauseGenerationOnFailureForMinutes ≤ (now - res.firstFailureTimestamp) / 60 then
          ((false, none, none), none)
        else if 0 < s.pauseGenerationOnFailureForRequests ∧
            0 < res.numberOfCachedResponsesReturned ∧
            s.pauseGenerationOnFailureForRequests ≤ res.numberOfCachedResponsesReturned then
          ((false, none, none), none)
        else
          ((true, none,
            some ("Manifest generation error (cached): " ++ res.mostRecentError)),
            if firstInvocation then
              some { res with numberOfCachedResponsesReturned :=
                res.numberOfCachedResponsesReturned + 1 }
            else some res)
      else
        ((false, res.manifestResponse, none), some res)
    else
      ((true, res.manifestResponse, none), some res)

/-- From the failure-write block of `runManifestGenAsync` in the embedded
repository.go: gated by `PauseGenerationAfterFailedGenerationAttempts > 0`,
fetch-or-create the entry, stamp `FirstFailureTimestamp` on the first failure,
increment `NumberOfConsecutiveFailures`, store `MostRecentError`, write back. -/
def runManifestGenFailureWrite (s : RepoServerInitConstants) (now : Nat)
    (err : String) (e : Option CachedManifestResponse) :
    Option CachedManifestResponse :=
  if 0 < s.pauseGenerationAfterFailedGenerationAttempts then
    match e with
    | none =>
      some { manifestResponse := none, mostRecentError := err,
             firstFailureTimestamp := now, numberOfConsecutiveFailures := 1,
             numberOfCachedResponsesReturned := 0 }
    | some innerRes =>
      if innerRes.firstFailureTimestamp = 0 then
        some { innerRes with
                firstFailureTimestamp := now
                numberOfConsecutiveFailures := innerRes.numberOfConsecutiveFailures + 1
                mostRecentError := err }
      else
        some { innerRes with
                numberOfConsecutiveFailures := innerRes.numberOfConsecutiveFailures + 1
                mostRecentError := err }
  else e

/-- From the success path of `runManifestGenAsync` in the embedded
repository.go: the fresh response is written with every failure field
explicitly zeroed, overwriting whatever shared the key. -/
def runManifestGenSuccessWrite (manifests : List String)
    (_e : Option CachedManifestResponse) : Option CachedManifestResponse :=
  some { manifestResponse := some manifests, mostRecentError := "",
         firstFailureTimestamp := 0, numberOfConsecutiveFailures := 0,
         numberOfCachedResponsesReturned := 0 }

/-- A sequence of failure writes, each with its own timestamp and error. -/
def recordFailures (s : RepoServerInitConstants) (fails : List (Nat × String))
    (e : Option CachedManifestResponse) : Option CachedManifestResponse :=
  fails.foldl (fun acc f => runManifestGenFailureWrite s f.1 f.2 acc) e

/-- The failure record with `n` consecutive failures since `t0`, most recent
error `err`, and `c` served cached responses. -/
def failEntry (t0 n : Nat) (err : String) (c : Nat) : CachedManifestResponse :=
  { manifestResponse := none, mostRecentError := err, firstFailureTimestamp := t0,
    numberOfConsecutiveFailures := n, numberOfCachedResponsesReturned := c }

/-- The error of the last failure in the sequence, defaulting to `err`. -/
def lastErrorD (err : String) : List (Nat × String) → String
  | [] => err
  | f :: rest => lastErrorD f.2 rest

theorem getManifestCacheEntry_some (s : RepoServerInitConstants) (now : Nat)
    (fi : Bool) (res : CachedManifestResponse) :
    getManifestCacheEntry s now fi (some res) =
      if 0 < s.pauseGenerationAfterFailedGenerationAttempts ∧
          0 < res.firstFailureTimestamp then
        if s.pauseGenerationAfterFailedGenerationAttempts ≤
            res.numberOfConsecutiveFailures then
          if 0 < s.pauseGenerationOnFailureForMinutes ∧
              s.pauseGenerationOnFailureForMinutes ≤ (now - res.firstFailureTimestamp) / 60 then
            ((false, none, none), none)
          else if 0 < s.pauseGenerationOnFailureForRequests ∧
              0 < res.numberOfCachedResponsesReturned ∧
              s.pauseGenerationOnFailureForRequests ≤ res.numberOfCachedResponsesReturned then
            ((false, none, none), none)
          else
            ((true, none,
              some ("Manifest generation error (cached): " ++ res.mostRecentError)),
              if fi then
                some { res with numberOfCachedResponsesReturned :=
                  res.numberOfCachedResponsesReturned + 1 }
              else some res)
        else
          ((false, res.manifestResponse, none), some res)
      else
        ((true, res.manifestResponse, none), some res) := rfl

theorem runManifestGenFailureWrite_fail (s : RepoServerInitConstants)
    (hf : 0 < s.pauseGenerationAfterFailedGenerationAttempts)
    (now : Nat) (e' : String) (t0 n : Nat) (err : String) (c : Nat) (ht0 : t0 ≠ 0) :
    runManifestGenFailureWrite s now e' (some (failEntry t0 n err c)) =
      some (failEntry t0 (n + 1) e' c) := by
  rw [runManifestGenFailureWrite, if_pos hf]
  have hcond : ¬((failEntry t0 n err c).firstFailureTimestamp = 0) := ht0
  rw [if_neg hcond]
  rfl

theorem recordFailures_from_fail (s : RepoServerInitConstants)
    (hf : 0 < s.pauseGenerationAfterFailedGenerationAttempts)
    (fails : List (Nat × String)) :
    ∀ (t0 n : Nat) (err : String) (c : Nat), t0 ≠ 0 →
      recordFailures s fails (some (failEntry t0 n err c)) =
        some (failEntry t0 (n + fails.length) (lastErrorD err fails) c) := by
  induction fails with
  | nil => intro t0 n err c _; simp [recordFailures, lastErrorD]
  | cons f rest ih =>
    intro t0 n err c ht0
    have hthis : recordFailures s (f :: rest) (some (failEntry t0 n err c)) =
        recordFailures s rest (some (failEntry t0 (n + 1) f.2 c)) := by
      rw [recordFailures, List.foldl_cons,
        runManifestGenFailureWrite_fail s hf f.1 f.2 t0 n err c ht0]
      rfl
    have harith : n + 1 + rest.length = n + (rest.length + 1) := by omega
    rw [hthis, ih t0 (n + 1) f.2 c ht0, harith]
    rfl

/-- C1 counterexample: with backoff enabled, one recorded failure, and
`pauseRequests = 0`, the claim says the (0+1)-th read already invokes the
renderer again; the code's count exit is gated on `pauseRequests > 0`, so the
first read still serves the cached error and keeps the entry. -/
theorem cache_backoff_zero_requests_counterexample :
    (getManifestCacheEntry (RepoServerInitConstants.mk 1 1440 0) 60 true
        (some (failEntry 1 1 "boom" 0))).1 =
      (true, none, some "Manifest generation error (cached): boom")
    ∧ (getManifestCacheEntry (RepoServerInitConstants.mk 1 1440 0) 60 true
        (some (failEntry 1 1 "boom" 0))).2 ≠ none := by
  constructor
  · rfl
  · decide

/-- C1 (amended): with backoff enabled and `pauseRequests > 0`, after exactly
`pauseAfterFailures` consecutive failures the entry pauses; while the time exit
has not fired, each of the next `pauseRequests` first-invocation reads serves
the prefixed cached error and bumps the served counter, and the read after
that deletes the entry so the renderer runs again. -/
theorem cache_negative_entry_backoff (s : RepoServerInitConstants)
    (hf : 0 < s.pauseGenerationAfterFailedGenerationAttempts)
    (hr : 0 < s.pauseGenerationOnFailureForRequests)
    (t0 now : Nat) (ht0 : 0 < t0) (e0 : String) (rest : List (Nat × String))
    (hlen : rest.length + 1 = s.pauseGenerationAfterFailedGenerationAttempts)
    (htime : (now - t0) / 60 < s.pauseGenerationOnFailureForMinutes ∨
      s.pauseGenerationOnFailureForMinutes = 0) :
    (recordFailures s ((t0, e0) :: rest) none =
      some (failEntry t0 s.pauseGenerationAfterFailedGenerationAttempts
        (lastErrorD e0 rest) 0))
    ∧ (∀ i, i < s.pauseGenerationOnFailureForRequests →
        getManifestCacheEntry s now true
          (some (failEntry t0 s.pauseGenerationAfterFailedGenerationAttempts
            (lastErrorD e0 rest) i)) =
          ((true, none,
            some ("Manifest generation error (cached): " ++ lastErrorD e0 rest)),
            some (failEntry t0 s.pauseGenerationAfterFailedGenerationAttempts
              (lastErrorD e0 rest) (i + 1))))
    ∧ getManifestCacheEntry s now true
        (some (failEntry t0 s.pauseGenerationAfterFailedGenerationAttempts
          (lastErrorD e0 rest) s.pauseGenerationOnFailureForRequests)) =
        ((false, none, none), none) := by
  have hnotime : ¬(0 < s.pauseGenerationOnFailureForMinutes ∧
      s.pauseGenerationOnFailureForMinutes ≤ (now - t0) / 60) := by
    rcases htime with h | h
    · exact fun hc => absurd hc.2 (by omega)
    · exact fun hc => absurd hc.1 (by omega)
  refine ⟨?_, ?_, ?_⟩
  · have h0 : recordFailures s ((t0, e0) :: rest) none =
        recordFailures s rest (some (failEntry t0 1 e0 0)) := by
      rw [recordFailures, List.foldl_cons]
      have hw : runManifestGenFailureWrite s t0 e0 none =
          some (failEntry t0 1 e0 0) := by
        rw [runManifestGenFailureWrite, if_pos hf]
        rfl
      rw [hw]
      rfl
    rw [h0, recordFailures_from_fail s hf rest t0 1 e0 0 (by omega)]
    have harith : 1 + rest.length = s.pauseGenerationAfterFailedGenerationAttempts := by
      omega
    rw [harith]
  · intro i hi
    rw [getManifestCacheEntry_some]
    simp only [failEntry]
    have hnocount : ¬(0 < s.pauseGenerationOnFailureForRequests ∧
        0 < i ∧ s.pauseGenerationOnFailureForRequests ≤ i) := by
      intro hc
      have : s.pauseGenerationOnFailureForRequests ≤ i := hc.2.2
      omega
    rw [if_pos ⟨hf, ht0⟩, if_pos (le_refl _), if_neg hnotime, if_neg hnocount,
      if_pos trivial]
  · rw [getManifestCacheEntry_some]
    simp only [failEntry]
    have hcount : 0 < s.pauseGenerationOnFailureForRequests ∧
        0 < s.pauseGenerationOnFailureForRequests ∧
        s.pauseGenerationOnFailureForRequests ≤
          s.pauseGenerationOnFailureForRequests := ⟨hr, hr, le_refl _⟩
    rw [if_pos ⟨hf, ht0⟩, if_pos (le_refl _), if_neg hnotime, if_pos hcount]

/-- Witness for the amended C1 with `pauseAfterFailures = 2`,
`pauseMinutes = 1440`, `pauseRequests = 2`, failures at seconds 1 and 2, reads
at second 60. -/
theorem cache_negative_entry_backoff_witness :
    (recordFailures (RepoServerInitConstants.mk 2 1440 2) ((1, "boom0") :: [(2, "boom")]) none =
      some (failEntry 1
        (RepoServerInitConstants.mk 2 1440 2).pauseGenerationAfterFailedGenerationAttempts
        (lastErrorD "boom0" [(2, "boom")]) 0))
    ∧ (∀ i, i < (RepoServerInitConstants.mk 2 1440 2).pauseGenerationOnFailureForRequests →
        getManifestCacheEntry (RepoServerInitConstants.mk 2 1440 2) 60 true
          (some (failEntry 1
            (RepoServerInitConstants.mk 2 1440 2).pauseGenerationAfterFailedGenerationAttempts
            (lastErrorD "boom0" [(2, "boom")]) i)) =
          ((true, none,
            some ("Manifest generation error (cached): " ++ lastErrorD "boom0" [(2, "boom")])),
            some (failEntry 1
              (RepoServerInitConstants.mk 2 1440 2).pauseGenerationAfterFailedGenerationAttempts
              (lastErrorD "boom0" [(2, "boom")]) (i + 1))))
    ∧ getManifestCacheEntry (RepoServerInitConstants.mk 2 1440 2) 60 true
        (some (failEntry 1
          (RepoServerInitConstants.mk 2 1440 2).pauseGenerationAfterFailedGenerationAttempts
          (lastErrorD "boom0" [(2, "boom")])
          (RepoServerInitConstants.mk 2 1440 2).pauseGenerationOnFailureForRequests)) =
        ((false, none, none), none) :=
  cache_negative_entry_backoff (RepoServerInitConstants.mk 2 1440 2) (by decide) (by decide)
    1 60 (by decide) "boom0" [(2, "boom")] (by decide) (by decide)

/-- C7: the success write of `runManifestGenAsync` after any sequence of
failures overwrites the entry at the key with the response and all four
failure fields zeroed, and a subsequent probe is a plain hit, never a cached
error. -/
theorem cache_success_resets (s : RepoServerInitConstants) (now : Nat) (fi : Bool)
    (ms : List String) (fails : List (Nat × String)) :
    runManifestGenSuccessWrite ms (recordFailures s fails none) =
      some { manifestResponse := some ms, mostRecentError := "",
             firstFailureTimestamp := 0, numberOfConsecutiveFailures := 0,
             numberOfCachedResponsesReturned := 0 }
    ∧ getManifestCacheEntry s now fi
        (runManifestGenSuccessWrite ms (recordFailures s fails none)) =
        ((true, some ms, none),
          runManifestGenSuccessWrite ms (recordFailures s fails none)) := by
  have h1 : runManifestGenSuccessWrite ms (recordFailures s fails none) =
      some (CachedManifestResponse.mk (some ms) "" 0 0 0) := rfl
  refine ⟨h1, ?_⟩
  rw [h1, getManifestCacheEntry_some]
  have hcond : ¬(0 < s.pauseGenerationAfterFailedGenerationAttempts ∧
      (0 : Nat) < (CachedManifestResponse.mk (some ms) "" 0 0 0).firstFailureTimestamp) :=
    fun hc => absurd hc.2 (lt_irrefl 0)
  rw [if_neg hcond]

/-- Modelled from the spec: per-tool render options entering the cache key
(§3 `SourceRef.renderOptions`). -/
structure RenderOptions where
  valueFiles : List String
  parameters : List (String × String)
  values : String
deriving DecidableEq, Repr

/-- Modelled from the spec: the per-request inputs of the §4.8 orchestrator.
Only the first seven fields belong to the §3 `CacheKey` fingerprint; the three
flags do not. -/
structure ManifestRequest where
  resolvedRevision : String
  crossRef : List (String × String × String)
  path : String
  renderOptions : RenderOptions
  appName : String
  appNamespace : String
  trackingMode : String
  noCache : Bool
  noRevisionCache : Bool
  verifySignature : Bool
deriving DecidableEq, Repr

/-- Serialize a list of fragments with a separator. -/
def fingerprintList (l : List String) : String :=
  String.intercalate "," l

/-- Serialize render options for the fingerprint. -/
def renderOptionsFingerprint (o : RenderOptions) : String :=
  fingerprintList o.valueFiles ++ ";" ++
    fingerprintList (o.parameters.map (fun p => p.1 ++ "=" ++ p.2)) ++ ";" ++ o.values

/-- Serialize the ordered CrossRef map (token, repo URL, resolved revision). -/
def crossRefFingerprint (c : List (String × String × String)) : String :=
  fingerprintList (c.map (fun r => r.1 ++ "@" ++ r.2.1 ++ ":" ++ r.2.2))

/-- Modelled from the spec: the §3 `CacheKey` — a deterministic fingerprint of
resolvedRevision, the CrossRef map, path, normalized renderOptions, the
app-identity tuple, and tracking mode, and of nothing else. The options
normalization is the abstract parameter `normalize`. -/
def cacheKey (normalize : RenderOptions → RenderOptions) (r : ManifestRequest) : String :=
  r.resolvedRevision ++ "|" ++ crossRefFingerprint r.crossRef ++ "|" ++ r.path ++ "|" ++
    renderOptionsFingerprint (normalize r.renderOptions) ++ "|" ++
    r.appName ++ "/" ++ r.appNamespace ++ "|" ++ r.trackingMode

/-- C3: the cache key is deterministic — two requests agreeing on
resolvedRevision, CrossRef map, path, normalized render options, app identity,
and tracking mode get byte-identical keys, whatever their other flags. -/
theorem cacheKey_deterministic (normalize : RenderOptions → RenderOptions)
    (r1 r2 : ManifestRequest)
    (h1 : r1.resolvedRevision = r2.resolvedRevision)
    (h2 : r1.crossRef = r2.crossRef)
    (h3 : r1.path = r2.path)
    (h4 : normalize r1.renderOptions = normalize r2.renderOptions)
    (h5 : r1.appName = r2.appName)
    (h6 : r1.appNamespace = r2.appNamespace)
    (h7 : r1.trackingMode = r2.trackingMode) :
    cacheKey normalize r1 = cacheKey normalize r2 := by
  rw [cacheKey, cacheKey, h1, h2, h3, h4, h5, h6, h7]

/-- Witness for C3: two requests identical on the fingerprinted fields but
differing on all three flags still produce the same key. -/
theorem cacheKey_deterministic_witness :
    cacheKey (fun o => o)
        (ManifestRequest.mk "abc123" [("$r", "url", "def")] "apps/x"
          (RenderOptions.mk ["values.yaml"] [("p", "1")] "") "app" "ns" "label"
          false false false) =
      cacheKey (fun o => o)
        (ManifestRequest.mk "abc123" [("$r", "url", "def")] "apps/x"
          (RenderOptions.mk ["values.yaml"] [("p", "1")] "") "app" "ns" "label"
          true true true) :=
  cacheKey_deterministic (fun o => o) _ _ rfl rfl rfl rfl rfl rfl rfl

/-- From `v1alpha1.RefTarget` as the embedded repository.go reference loops use
it: the repository URL (`Repo.Repo`), the target revision, and the `Chart`
field (`""` when the target is not a chart). -/
structure RefTarget where
  repo : String
  targetRevision : String
  chart : String
deriving DecidableEq, Repr

/-- The `repoRef` record of the embedded repository.go: the target-revision
string, the resolved commit SHA, and the ref variable (`$…`) that first
introduced the repository. -/
structure RepoRefEntry where
  revision : String
  commitSHA : String
  key : String
deriving DecidableEq, Repr

/-- The error cases of the reference-checkout loop in `runManifestGenAsync`
and of `resolveReferencedSources` in the embedded repository.go, one
constructor per distinct `ch.errCh <- …` / `return nil, …` message (when a
ref variable is unknown and `RefSources` is empty the Go code sends the
no-ref-field error first, so that is the error observed). -/
inductive RefLoopError
  | noRefSources (refVar : String)
  | unknownRefVar (refVar : String)
  | chartRefNotSupported
  | resolveFailed (repo : String)
  | inconsistentPrimaryRevision (refVar sha : String)
  | inconsistentReferenceRevisions (refVar targetRevision key heldRevision : String)
  | lockFailed (root : String)
  | oobSymlinks (file : String)
deriving DecidableEq, Repr

/-- The collaborators of the reference-checkout loop, abstract here:
`git.NormalizeGitURL`, `s.newClientResolveRevision` (returning the resolved
commit SHA, `none` on error), the git client's `Root()` for a repository,
whether `s.repoLock.Lock` on a root and revision succeeds, the
`AllowOutOfBoundsSymlinks` init constant, and `CheckOutOfBoundsSymlinks` on a
root (the offending file, if any). -/
structure RefLoopEnv where
  normalizeGitURL : String → String
  resolveRevision : String → String → Option String
  gitRoot : String → String
  lockOk : String → String → Bool
  allowOutOfBoundsSymlinks : Bool
  oobSymlink : String → Option String

/-- Whether a value-file path is a reference path
(`strings.HasPrefix(valueFile, "$")`). -/
def isRefPath (path : String) : Bool :=
  path.data.take 1 == ['$']

/-- Characters of a path up to the first `/`. -/
def takeToken : List Char → List Char
  | [] => []
  | c :: rest => if c = '/' then [] else c :: takeToken rest

/-- The reference token `refVar` of a path: its first `/`-delimited segment
(`strings.Split(valueFile, "/")[0]`). -/
def refToken (path : String) : String :=
  ⟨takeToken path.data⟩

/-- Go map lookup over an insertion-ordered association list. -/
def lookupAssoc {α : Type} (m : List (String × α)) (k : String) : Option α :=
  (m.find? (fun p => p.1 == k)).map Prod.snd

/-- From the `refCandidates` loop of `runManifestGenAsync` in the embedded
repository.go: walk the candidate value files; for each `$`-prefixed path look
up its ref variable in `RefSources`, reject charts, and — if the normalized
repository URL is already in `repoRefs` — fail when the recorded
target-revision string differs from this reference's; otherwise resolve the
revision, reject a different resolution of the primary repository, lock and
check out the referenced repository (recorded in `acquired`; the deferred
unlock at function exit does not undo the acquisition), run the symlink
check, and record the entry. Returns the loop result and every root acquired
along the way. -/
def refCandidatesLoop (env : RefLoopEnv) (refSources : List (String × RefTarget))
    (appRepoURL commitSHA : String) :
    List String → List (String × RepoRefEntry) → List String →
    Except RefLoopError (List (String × RepoRefEntry)) × List String
  | [], repoRefs, acquired => (.ok repoRefs, acquired)
  | valueFile :: rest, repoRefs, acquired =>
    if isRefPath valueFile then
      let refVar := refToken valueFile
      match lookupAssoc refSources refVar with
      | none =>
        if refSources.isEmpty then (.error (.noRefSources refVar), acquired)
        else (.error (.unknownRefVar refVar), acquired)
      | some refSourceMapping =>
        if refSourceMapping.chart ≠ "" then (.error .chartRefNotSupported, acquired)
        else
          let normalizedRepoURL := env.normalizeGitURL refSourceMapping.repo
          match lookupAssoc repoRefs normalizedRepoURL with
          | some closer =>
            if closer.revision ≠ refSourceMapping.targetRevision then
              (.error (.inconsistentReferenceRevisions refVar
                refSourceMapping.targetRevision closer.key closer.revision), acquired)
            else refCandidatesLoop env refSources appRepoURL commitSHA rest repoRefs acquired
          | none =>
            match env.resolveRevision refSourceMapping.repo refSourceMapping.targetRevision with
            | none => (.error (.resolveFailed refSourceMapping.repo), acquired)
            | some referencedCommitSHA =>
              if env.normalizeGitURL appRepoURL = normalizedRepoURL ∧
                  commitSHA ≠ referencedCommitSHA then
                (.error (.inconsistentPrimaryRevision refVar referencedCommitSHA), acquired)
              else if env.lockOk (env.gitRoot refSourceMapping.repo) referencedCommitSHA then
                if env.allowOutOfBoundsSymlinks then
                  refCandidatesLoop env refSources appRepoURL commitSHA rest
                    (repoRefs ++ [(normalizedRepoURL,
                      RepoRefEntry.mk refSourceMapping.targetRevision referencedCommitSHA refVar)])
                    (acquired ++ [env.gitRoot refSourceMapping.repo])
                else
                  match env.oobSymlink (env.gitRoot refSourceMapping.repo) with
                  | some file =>
                    (.error (.oobSymlinks file), acquired ++ [env.gitRoot refSourceMapping.repo])
                  | none =>
                    refCandidatesLoop env refSources appRepoURL commitSHA rest
                      (repoRefs ++ [(normalizedRepoURL,
                        RepoRefEntry.mk refSourceMapping.targetRevision referencedCommitSHA refVar)])
                      (acquired ++ [env.gitRoot refSourceMapping.repo])
              else (.error (.lockFailed (env.gitRoot refSourceMapping.repo)), acquired)
    else refCandidatesLoop env refSources appRepoURL commitSHA rest repoRefs acquired

/-- From `resolveReferencedSources` in the embedded repository.go: the same
candidate walk, but a repository URL already in the map is skipped with no
revision comparison, nothing is locked or checked out, and the map records the
resolved commit SHA. -/
def resolveReferencedSourcesLoop (normalizeGitURL : String → String)
    (newClientResolveRevision : String → String → Option String)
    (refSources : List (String × RefTarget)) :
    List String → List (String × String) →
    Except RefLoopError (List (String × String))
  | [], repoRefs => .ok repoRefs
  | valueFile :: rest, repoRefs =>
    if isRefPath valueFile then
      let refVar := refToken valueFile
      match lookupAssoc refSources refVar with
      | none =>
        if refSources.isEmpty then .error (.noRefSources refVar)
        else .error (.unknownRefVar refVar)
      | some refSourceMapping =>
        if refSourceMapping.chart ≠ "" then .error .chartRefNotSupported
        else
          let normalizedRepoURL := normalizeGitURL refSourceMapping.repo
          match lookupAssoc repoRefs normalizedRepoURL with
          | some _ =>
            resolveReferencedSourcesLoop normalizeGitURL newClientResolveRevision
              refSources rest repoRefs
          | none =>
            match newClientResolveRevision refSourceMapping.repo
                refSourceMapping.targetRevision with
            | none => .error (.resolveFailed refSourceMapping.repo)
            | some referencedCommitSHA =>
              resolveReferencedSourcesLoop normalizeGitURL newClientResolveRevision
                refSources rest (repoRefs ++ [(normalizedRepoURL, referencedCommitSHA)])
    else
      resolveReferencedSourcesLoop normalizeGitURL newClientResolveRevision
        refSources rest repoRefs

/-- `resolveReferencedSources` itself: an empty map when the application does
not have multiple sources or has no Helm source, else the loop over the
candidates from an empty map. -/
def resolveReferencedSources (hasMultipleSources helmSourcePresent : Bool)
    (normalizeGitURL : String → String)
    (newClientResolveRevision : String → String → Option String)
    (refSources : List (String × RefTarget)) (refCandidates : List String) :
    Except RefLoopError (List (String × String)) :=
  if hasMultipleSources ∧ helmSourcePresent then
    resolveReferencedSourcesLoop normalizeGitURL newClientResolveRevision
      refSources refCandidates []
  else .ok []

/-- Stepping the loop over a fresh (not yet recorded) reference that resolves,
passes the primary check, locks, and passes the symlink check: the repository
root is acquired and the entry recorded. -/
theorem refLoop_fresh_step (env : RefLoopEnv)
    (refSources : List (String × RefTarget)) (appRepoURL commitSHA : String)
    (p : String) (rest : List String) (repoRefs : List (String × RepoRefEntry))
    (acquired : List String) (s : RefTarget) (sha : String)
    (hp : isRefPath p = true)
    (hl : lookupAssoc refSources (refToken p) = some s)
    (hc : s.chart = "")
    (hdup : lookupAssoc repoRefs (env.normalizeGitURL s.repo) = none)
    (hres : env.resolveRevision s.repo s.targetRevision = some sha)
    (hprim : env.normalizeGitURL appRepoURL ≠ env.normalizeGitURL s.repo)
    (hlock : env.lockOk (env.gitRoot s.repo) sha = true)
    (hoob : env.allowOutOfBoundsSymlinks = true) :
    refCandidatesLoop env refSources appRepoURL commitSHA (p :: rest) repoRefs acquired =
      refCandidatesLoop env refSources appRepoURL commitSHA rest
        (repoRefs ++ [(env.normalizeGitURL s.repo,
          RepoRefEntry.mk s.targetRevision sha (refToken p))])
        (acquired ++ [env.gitRoot s.repo]) := by
  simp [refCandidatesLoop, hp, hl, hc, hdup, hres, hprim, hlock, hoob]

/-- Stepping the loop over a reference whose normalized URL is already
recorded under a different target-revision string: the multiple-revisions
error, with the acquisitions already made left in place. -/
theorem refLoop_conflict_step (env : RefLoopEnv)
    (refSources : List (String × RefTarget)) (appRepoURL commitSHA : String)
    (p : String) (rest : List String) (repoRefs : List (String × RepoRefEntry))
    (acquired : List String) (s : RefTarget) (closer : RepoRefEntry)
    (hp : isRefPath p = true)
    (hl : lookupAssoc refSources (refToken p) = some s)
    (hc : s.chart = "")
    (hdup : lookupAssoc repoRefs (env.normalizeGitURL s.repo) = some closer)
    (hrev : closer.revision ≠ s.targetRevision) :
    refCandidatesLoop env refSources appRepoURL commitSHA (p :: rest) repoRefs acquired =
      (.error (.inconsistentReferenceRevisions (refToken p) s.targetRevision
        closer.key closer.revision), acquired) := by
  simp [refCandidatesLoop, hp, hl, hc, hdup, hrev]

/-- The environment of the concrete conflict scenario: identity URL
normalization and roots, every revision resolving to `"sha"`, locks granted,
out-of-bounds symlinks allowed. -/
def conflictEnv : RefLoopEnv :=
  { normalizeGitURL := fun u => u
    resolveRevision := fun _ _ => some "sha"
    gitRoot := fun r => r
    lockOk := fun _ _ => true
    allowOutOfBoundsSymlinks := true
    oobSymlink := fun _ => none }

/-- Two ref variables naming one repository under two target revisions. -/
def conflictRefSources : List (String × RefTarget) :=
  [("$a", RefTarget.mk "url" "v1" ""), ("$b", RefTarget.mk "url" "v2" "")]

/-- C4 counterexample: with `$a` → (`url`, `v1`) and `$b` → (`url`, `v2`), the
reference loop of `runManifestGenAsync` does fail with the multiple-revisions
error, but only after locking and checking out `url` while processing `$a` —
the acquisitions are `["url"]`, not none — and `resolveReferencedSources` on
the same request does not fail at all: it skips the duplicate URL without
comparing revisions and returns the map. -/
theorem refLoop_conflict_acquires_counterexample :
    refCandidatesLoop conflictEnv conflictRefSources "app-url" "appsha"
        ["$a/values.yaml", "$b/values.yaml"] [] [] =
      (.error (.inconsistentReferenceRevisions "$b" "v2" "$a" "v1"), ["url"])
    ∧ resolveReferencedSources true true (fun u => u) (fun _ _ => some "sha")
        conflictRefSources ["$a/values.yaml", "$b/values.yaml"] =
      .ok [("url", "sha")] := by
  exact ⟨rfl, rfl⟩

/-- C4 (amended): when a first reference to a repository is processed fresh
(resolved, locked, checked out) and a later reference names the same
normalized URL under a different target-revision string, the loop fails with
the multiple-revisions error while the repository has already been acquired:
the acquisition list is exactly the first reference's root, which is not
empty. -/
theorem refLoop_conflict_after_acquire (env : RefLoopEnv)
    (refSources : List (String × RefTarget)) (appRepoURL commitSHA : String)
    (p1 p2 : String) (rest : List String) (s1 s2 : RefTarget) (sha : String)
    (hp1 : isRefPath p1 = true) (hp2 : isRefPath p2 = true)
    (hl1 : lookupAssoc refSources (refToken p1) = some s1)
    (hl2 : lookupAssoc refSources (refToken p2) = some s2)
    (hc1 : s1.chart = "") (hc2 : s2.chart = "")
    (hurl : env.normalizeGitURL s1.repo = env.normalizeGitURL s2.repo)
    (hres : env.resolveRevision s1.repo s1.targetRevision = some sha)
    (hprim : env.normalizeGitURL appRepoURL ≠ env.normalizeGitURL s1.repo)
    (hlock : env.lockOk (env.gitRoot s1.repo) sha = true)
    (hoob : env.allowOutOfBoundsSymlinks = true)
    (hrev : s1.targetRevision ≠ s2.targetRevision) :
    refCandidatesLoop env refSources appRepoURL commitSHA (p1 :: p2 :: rest) [] [] =
      (.error (.inconsistentReferenceRevisions (refToken p2) s2.targetRevision
        (refToken p1) s1.targetRevision), [env.gitRoot s1.repo])
    ∧ [env.gitRoot s1.repo] ≠ ([] : List String) := by
  have h1 := refLoop_fresh_step env refSources appRepoURL commitSHA p1 (p2 :: rest)
    [] [] s1 sha hp1 hl1 hc1 rfl hres hprim hlock hoob
  have hdup2 : lookupAssoc
      ([] ++ [(env.normalizeGitURL s1.repo,
        RepoRefEntry.mk s1.targetRevision sha (refToken p1))])
      (env.normalizeGitURL s2.repo) =
      some (RepoRefEntry.mk s1.targetRevision sha (refToken p1)) := by
    rw [← hurl]
    simp [lookupAssoc]
  have hrev2 : (RepoRefEntry.mk s1.targetRevision sha (refToken p1)).revision ≠
      s2.targetRevision := hrev
  have h2 := refLoop_conflict_step env refSources appRepoURL commitSHA p2 rest
    ([] ++ [(env.normalizeGitURL s1.repo,
      RepoRefEntry.mk s1.targetRevision sha (refToken p1))])
    ([] ++ [env.gitRoot s1.repo]) s2
    (RepoRefEntry.mk s1.targetRevision sha (refToken p1)) hp2 hl2 hc2 hdup2 hrev2
  refine ⟨?_, by simp⟩
  rw [h1, h2]
  simp

/-- Witness for the amended C4 at the concrete conflict scenario. -/
theorem refLoop_conflict_after_acquire_witness :
    refCandidatesLoop conflictEnv conflictRefSources "app-url" "appsha"
        ["$a/x.yaml", "$b/x.yaml"] [] [] =
      (.error (.inconsistentReferenceRevisions "$b" "v2" "$a" "v1"), ["url"])
    ∧ (["url"] : List String) ≠ [] :=
  refLoop_conflict_after_acquire conflictEnv conflictRefSources "app-url" "appsha"
    "$a/x.yaml" "$b/x.yaml" [] (RefTarget.mk "url" "v1" "") (RefTarget.mk "url" "v2" "")
    "sha" (by decide) (by decide) rfl rfl rfl rfl rfl rfl (by decide) rfl rfl (by decide)

/-- Modelled from the spec: the §4.2 per-treeRoot lock state — the revision
currently checked out (`none` when idle), the active reader count, and the
FIFO queue of waiting desired revisions. `refs = 0` with `rev = none` is IDLE;
`refs > 0` is HELD. -/
structure TreeLockState where
  rev : Option String
  refs : Nat
  queue : List String
deriving DecidableEq, Repr

/-- Outcome of a lock request. -/
inductive LockOutcome
  | grantedShared
  | queued
deriving DecidableEq, Repr

/-- Modelled from the spec: one `lock(treeRoot, desiredRevision, …)` request of
§4.2. From IDLE the checkout function runs and the tree becomes HELD; from HELD
with the same revision the caller shares (`refs + 1`, no checkout); from HELD
with a different revision the caller is queued FIFO. Returns the new state, the
outcome, and whether the checkout function ran. -/
def lockStep (st : TreeLockState) (rev : String) :
    TreeLockState × LockOutcome × Bool :=
  if st.refs = 0 then
    ({ rev := some rev, refs := 1, queue := st.queue }, .grantedShared, true)
  else if st.rev = some rev then
    ({ st with refs := st.refs + 1 }, .grantedShared, false)
  else
    ({ st with queue := st.queue ++ [rev] }, .queued, false)

/-- Modelled from the spec: one release of §4.2. The last release admits the
FIFO head; a waiter whose desired revision already matches the held one shares
the tree without a new checkout, otherwise the checkout runs for the waiter.
Returns the new state and the revision checked out now, if any. -/
def releaseStep (st : TreeLockState) : TreeLockState × Option String :=
  if st.refs ≤ 1 then
    match st.queue with
    | [] => ({ st with refs := 0 }, none)
    | next :: restQ =>
      if st.rev = some next then
        ({ rev := st.rev, refs := 1, queue := restQ }, none)
      else
        ({ rev := some next, refs := 1, queue := restQ }, some next)
  else
    ({ st with refs := st.refs - 1 }, none)

/-- C5: a lock request for the revision already held moves HELD(rev, n) to
HELD(rev, n+1) with shared access and never runs the checkout; and a checkout
runs only from IDLE or, on release hand-over, for a queued revision different
from the held one. -/
theorem lock_same_revision_shares (rev : String) (n : Nat) (q : List String)
    (hn : 0 < n) :
    (lockStep (TreeLockState.mk (some rev) n q) rev =
      (TreeLockState.mk (some rev) (n + 1) q, .grantedShared, false))
    ∧ (∀ (st : TreeLockState) (r : String), (lockStep st r).2.2 = true → st.refs = 0)
    ∧ (∀ (st : TreeLockState) (r : String), (releaseStep st).2 = some r →
        st.rev ≠ some r) := by
  refine ⟨?_, ?_, ?_⟩
  · have hne : (TreeLockState.mk (some rev) n q).refs ≠ 0 := Nat.pos_iff_ne_zero.mp hn
    have hre : (TreeLockState.mk (some rev) n q).rev = some rev := rfl
    rw [lockStep, if_neg hne, if_pos hre]
  · intro st r h
    rw [lockStep] at h
    by_cases h0 : st.refs = 0
    · exact h0
    · rw [if_neg h0] at h
      by_cases hr : st.rev = some r
      · rw [if_pos hr] at h
        exact absurd h (by simp)
      · rw [if_neg hr] at h
        exact absurd h (by simp)
  · intro st r h
    rw [releaseStep] at h
    by_cases h1 : st.refs ≤ 1
    · rw [if_pos h1] at h
      cases hq : st.queue with
      | nil => rw [hq] at h; exact absurd h (by simp)
      | cons next restQ =>
        rw [hq] at h
        simp only at h
        by_cases hr : st.rev = some next
        · rw [if_pos hr] at h
          exact absurd h (by simp)
        · rw [if_neg hr] at h
          have hnr : next = r := Option.some.inj h
          intro hcontra
          apply hr
          rw [hcontra, hnr]
    · rw [if_neg h1] at h
      exact absurd h (by simp)

/-- Witness for C5 at HELD("abc", 1) with an empty queue. -/
theorem lock_same_revision_shares_witness :
    (lockStep (TreeLockState.mk (some "abc") 1 []) "abc" =
      (TreeLockState.mk (some "abc") 2 [], .grantedShared, false))
    ∧ (∀ (st : TreeLockState) (r : String), (lockStep st r).2.2 = true → st.refs = 0)
    ∧ (∀ (st : TreeLockState) (r : String), (releaseStep st).2 = some r →
        st.rev ≠ some r) :=
  lock_same_revision_shares "abc" 1 [] (by decide)

/-- Modelled from the spec: a fully-qualified semver version `M.m.p` (§4.1). -/
structure SemVer where
  major : Nat
  minor : Nat
  patch : Nat
deriving DecidableEq, Repr

/-- Strict version order, major then minor then patch. -/
def svLt (a b : SemVer) : Prop :=
  a.major < b.major ∨ (a.major = b.major ∧
    (a.minor < b.minor ∨ (a.minor = b.minor ∧ a.patch < b.patch)))

/-- Boolean form of `svLt`. -/
def semVerLtB (a b : SemVer) : Bool :=
  decide (a.major < b.major) ||
    (decide (a.major = b.major) &&
      (decide (a.minor < b.minor) ||
        (decide (a.minor = b.minor) && decide (a.patch < b.patch))))

theorem semVerLtB_iff (a b : SemVer) : semVerLtB a b = true ↔ svLt a b := by
  rw [semVerLtB, svLt]
  simp

theorem svLt_irrefl (a : SemVer) : ¬svLt a a := by
  rw [svLt]
  omega

theorem svLt_trans (a b c : SemVer) (h1 : svLt a b) (h2 : svLt b c) : svLt a c := by
  rw [svLt] at h1 h2 ⊢
  omega

/-- Parse a non-empty all-digit character run as a natural number. -/
def parseNat (s : List Char) : Option Nat :=
  if s ≠ [] ∧ s.all (fun c => c.isDigit) then
    some (s.foldl (fun acc c => acc * 10 + (c.toNat - 48)) 0)
  else none

/-- Split a character list on `.`. -/
def splitDots : List Char → List (List Char)
  | [] => [[]]
  | c :: rest =>
    let parts := splitDots rest
    if c = '.' then [] :: parts
    else
      match parts with
      | [] => [[c]]
      | p :: ps => (c :: p) :: ps

/-- Modelled from the spec: recognize a fully-qualified semver `M.m.p`. -/
def parseSemVer (s : String) : Option SemVer :=
  match (splitDots s.data).map parseNat with
  | [some a, some b, some c] => some (SemVer.mk a b c)
  | _ => none

/-- Render a version back to its `M.m.p` string. -/
def showSemVer (v : SemVer) : String :=
  toString v.major ++ "." ++ toString v.minor ++ "." ++ toString v.patch

/-- The failure modes of `newHelmClientResolveRevision` in the embedded
repository.go: the §4.1 resolution failure (`versions.MaxVersion` finding no
satisfying version), and a tag-list fetch error (`GetTags`/`GetIndex`). -/
inductive ResolveError
  | resolveFailure
  | tagsUnavailable
deriving DecidableEq, Repr

/-- The maximum available version satisfying the constraint, if any. -/
def maxSatisfying (sat : SemVer → Bool) : List SemVer → Option SemVer
  | [] => none
  | v :: rest =>
    match maxSatisfying sat rest with
    | none => if sat v then some v else none
    | some w => if sat v && semVerLtB w v then some v else some w

/-- Modelled from the spec (util/versions is absent from the source tree):
`versions.IsVersion` — the input is a fully-qualified semver. -/
def isVersion (s : String) : Bool :=
  (parseSemVer s).isSome

/-- Modelled from the spec (util/versions is absent from the source tree):
`versions.MaxVersion` — the maximum version among the tags satisfying the
constraint, a failure when none does. The constraint language is the abstract
parameter `sat`. -/
def maxVersion (sat : String → SemVer → Bool) (constraint : String)
    (tags : List String) : Except ResolveError String :=
  match maxSatisfying (sat constraint) (tags.filterMap parseSemVer) with
  | some v => .ok (showSemVer v)
  | none => .error .resolveFailure

/-- From `newHelmClientResolveRevision` in the embedded repository.go: a
`versions.IsVersion` revision is returned verbatim; otherwise the tag list is
fetched — `helmClient.GetTags` when the registry is OCI, the index entries'
tags otherwise, either fetch abstracted as an `Option` that is `none` on
error — and `versions.MaxVersion` of the revision over the tags is returned,
every failure surfacing as an error. -/
def newHelmClientResolveRevision (sat : String → SemVer → Bool)
    (enableOCI : Bool) (getTags indexEntryTags : Option (List String))
    (revision : String) : Except ResolveError String :=
  if isVersion revision then .ok revision
  else
    match (if enableOCI then getTags else indexEntryTags) with
    | none => .error .tagsUnavailable
    | some tags => maxVersion sat revision tags

theorem maxSatisfying_none (sat : SemVer → Bool) :
    ∀ l : List SemVer, maxSatisfying sat l = none → ∀ v ∈ l, sat v = false := by
  intro l
  induction l with
  | nil => intro _ v hv; exact absurd hv (List.not_mem_nil _)
  | cons u rest ih =>
    intro h v hv
    rw [maxSatisfying] at h
    cases hrest : maxSatisfying sat rest with
    | none =>
      rw [hrest] at h
      simp only at h
      rcases List.mem_cons.mp hv with rfl | hv'
      · by_cases hs : sat v = true
        · rw [if_pos hs] at h; exact absurd h (by simp)
        · rw [Bool.not_eq_true] at hs; exact hs
      · exact ih hrest v hv'
    | some w =>
      rw [hrest] at h
      simp only at h
      by_cases hc : (sat u && semVerLtB w u) = true
      · rw [if_pos hc] at h; exact absurd h (by simp)
      · rw [if_neg hc] at h; exact absurd h (by simp)

theorem maxSatisfying_mem_sat (sat : SemVer → Bool) :
    ∀ (l : List SemVer) (v : SemVer), maxSatisfying sat l = some v →
      v ∈ l ∧ sat v = true := by
  intro l
  induction l with
  | nil => intro v h; exact absurd h (by rw [maxSatisfying]; simp)
  | cons u rest ih =>
    intro v h
    rw [maxSatisfying] at h
    cases hrest : maxSatisfying sat rest with
    | none =>
      rw [hrest] at h
      simp only at h
      by_cases hs : sat u = true
      · rw [if_pos hs] at h
        have huv : u = v := Option.some.inj h
        rw [← huv]
        exact ⟨List.mem_cons_self _ _, hs⟩
      · rw [if_neg hs] at h; exact absurd h (by simp)
    | some w =>
      rw [hrest] at h
      simp only at h
      by_cases hc : (sat u && semVerLtB w u) = true
      · rw [if_pos hc] at h
        have huv : u = v := Option.some.inj h
        rw [Bool.and_eq_true] at hc
        rw [← huv]
        exact ⟨List.mem_cons_self _ _, hc.1⟩
      · rw [if_neg hc] at h
        have hwv : w = v := Option.some.inj h
        rcases ih w hrest with ⟨hmem, hsat⟩
        rw [← hwv]
        exact ⟨List.mem_cons_of_mem _ hmem, hsat⟩

theorem maxSatisfying_max (sat : SemVer → Bool) :
    ∀ (l : List SemVer) (v : SemVer), maxSatisfying sat l = some v →
      ∀ w ∈ l, sat w = true → semVerLtB v w = false := by
  intro l
  induction l with
  | nil => intro v _ w hw; exact absurd hw (List.not_mem_nil _)
  | cons u rest ih =>
    intro v h w hw hsatw
    rw [maxSatisfying] at h
    cases hrest : maxSatisfying sat rest with
    | none =>
      rw [hrest] at h
      simp only at h
      by_cases hs : sat u = true
      · rw [if_pos hs] at h
        have huv : u = v := Option.some.inj h
        rcases List.mem_cons.mp hw with hwu | hw2
        · rw [hwu, ← huv, Bool.eq_false_iff]
          intro hlt
          exact svLt_irrefl u ((semVerLtB_iff u u).mp hlt)
        · have hfalse := maxSatisfying_none sat rest hrest w hw2
          rw [hfalse] at hsatw
          exact absurd hsatw (by simp)
      · rw [if_neg hs] at h; exact absurd h (by simp)
    | some m =>
      rw [hrest] at h
      simp only at h
      by_cases hc : (sat u && semVerLtB m u) = true
      · rw [if_pos hc] at h
        have huv : u = v := Option.some.inj h
        rw [Bool.and_eq_true] at hc
        rcases List.mem_cons.mp hw with hwu | hw2
        · rw [hwu, ← huv, Bool.eq_false_iff]
          intro hlt
          exact svLt_irrefl u ((semVerLtB_iff u u).mp hlt)
        · have hmw := ih m hrest w hw2 hsatw
          rw [← huv, Bool.eq_false_iff]
          intro hvw
          have h1 : svLt m u := (semVerLtB_iff m u).mp hc.2
          have h2 : svLt u w := (semVerLtB_iff u w).mp hvw
          have h3 : svLt m w := svLt_trans m u w h1 h2
          rw [Bool.eq_false_iff] at hmw
          exact hmw ((semVerLtB_iff m w).mpr h3)
      · rw [if_neg hc] at h
        have hmv : m = v := Option.some.inj h
        rcases List.mem_cons.mp hw with hwu | hw2
        · rw [hwu, ← hmv]
          cases hlt : semVerLtB m u with
          | false => rfl
          | true =>
            exfalso
            apply hc
            rw [Bool.and_eq_true]
            rw [hwu] at hsatw
            exact ⟨hsatw, hlt⟩
        · rw [← hmv]
          exact ih m hrest w hw2 hsatw

/-- C6: chart resolution in `newHelmClientResolveRevision` accepts a
fully-qualified semver verbatim; otherwise, with the tag list fetched, it
returns the maximum tag satisfying the constraint — a satisfying member of
the tag list that no satisfying tag exceeds — and fails with `ResolveFailure`
when no tag satisfies it. -/
theorem newHelmClientResolveRevision_semantics (sat : String → SemVer → Bool)
    (enableOCI : Bool) (getTags indexEntryTags : Option (List String))
    (revision : String) (tags : List String)
    (htags : (if enableOCI then getTags else indexEntryTags) = some tags) :
    ((parseSemVer revision).isSome = true →
      newHelmClientResolveRevision sat enableOCI getTags indexEntryTags revision =
        .ok revision)
    ∧ (parseSemVer revision = none →
        (∀ v ∈ tags.filterMap parseSemVer, sat revision v = false) →
        newHelmClientResolveRevision sat enableOCI getTags indexEntryTags revision =
          .error .resolveFailure)
    ∧ (parseSemVer revision = none → ∀ v,
        maxSatisfying (sat revision) (tags.filterMap parseSemVer) = some v →
        newHelmClientResolveRevision sat enableOCI getTags indexEntryTags revision =
          .ok (showSemVer v)
        ∧ v ∈ tags.filterMap parseSemVer ∧ sat revision v = true
        ∧ ∀ w ∈ tags.filterMap parseSemVer, sat revision w = true →
            semVerLtB v w = false) := by
  refine ⟨?_, ?_, ?_⟩
  · intro h
    rw [newHelmClientResolveRevision]
    have hv : isVersion revision = true := h
    rw [if_pos hv]
  · intro hp hnone
    have hv : isVersion revision = false := by rw [isVersion, hp]; rfl
    rw [newHelmClientResolveRevision, hv]
    simp only [Bool.false_eq_true, if_false, htags]
    rw [maxVersion]
    cases hm : maxSatisfying (sat revision) (tags.filterMap parseSemVer) with
    | none => rfl
    | some v =>
      exfalso
      rcases maxSatisfying_mem_sat (sat revision) (tags.filterMap parseSemVer) v hm with
        ⟨hmem, hsat⟩
      rw [hnone v hmem] at hsat
      exact absurd hsat (by simp)
  · intro hp v hm
    refine ⟨?_, (maxSatisfying_mem_sat _ _ v hm).1, (maxSatisfying_mem_sat _ _ v hm).2,
      maxSatisfying_max _ _ v hm⟩
    have hv : isVersion revision = false := by rw [isVersion, hp]; rfl
    rw [newHelmClientResolveRevision, hv]
    simp only [Bool.false_eq_true, if_false, htags]
    rw [maxVersion, hm]

/-- Witness for C6: a classic (non-OCI) registry whose index lists three tags;
the constraint "major = 1" selects 1.2.0 among them. -/
theorem newHelmClientResolveRevision_semantics_witness :
    ((parseSemVer "^1").isSome = true →
      newHelmClientResolveRevision (fun _ v => decide (v.major = 1)) false none
        (some ["1.0.0", "1.2.0", "2.0.0"]) "^1" = .ok "^1")
    ∧ (parseSemVer "^1" = none →
        (∀ v ∈ (["1.0.0", "1.2.0", "2.0.0"] : List String).filterMap parseSemVer,
          (fun (_ : String) (v : SemVer) => decide (v.major = 1)) "^1" v = false) →
        newHelmClientResolveRevision (fun _ v => decide (v.major = 1)) false none
          (some ["1.0.0", "1.2.0", "2.0.0"]) "^1" = .error .resolveFailure)
    ∧ (parseSemVer "^1" = none → ∀ v,
        maxSatisfying ((fun (_ : String) (v : SemVer) => decide (v.major = 1)) "^1")
          ((["1.0.0", "1.2.0", "2.0.0"] : List String).filterMap parseSemVer) = some v →
        newHelmClientResolveRevision (fun _ v => decide (v.major = 1)) false none
          (some ["1.0.0", "1.2.0", "2.0.0"]) "^1" = .ok (showSemVer v)
        ∧ v ∈ (["1.0.0", "1.2.0", "2.0.0"] : List String).filterMap parseSemVer
        ∧ (fun (_ : String) (v : SemVer) => decide (v.major = 1)) "^1" v = true
        ∧ ∀ w ∈ (["1.0.0", "1.2.0", "2.0.0"] : List String).filterMap parseSemVer,
            (fun (_ : String) (v : SemVer) => decide (v.major = 1)) "^1" w = true →
            semVerLtB v w = false) :=
  newHelmClientResolveRevision_semantics (fun _ v => decide (v.major = 1)) false none
    (some ["1.0.0", "1.2.0", "2.0.0"]) "^1" ["1.0.0", "1.2.0", "2.0.0"] rfl

/-- Observable events of the plugin (CMP) generation path in the embedded
repository.go: an archive byte streamed by `cmp.SendRepoStream`, the signal on
`tarDoneCh`, the working-tree lock release (`runRepoOperation`'s deferred
`utilio.Close(closer)` running), and the manifest response being received. -/
inductive PluginEvent
  | tarByte
  | tarDoneSignal
  | releaseLock
  | gotResponse
deriving DecidableEq, Repr

/-- From `runManifestGenAsync` → `GenerateManifests` → `generateManifestsCMP`
in the embedded repository.go: the generator goroutine streams the tarball
(`cmp.SendRepoStream`), signals on `tarDoneCh` right after the final byte
(`cmp.WithTarDoneChan`) — `runManifestGen` creates `tarDoneCh` and
`responseCh` unbuffered, so each send blocks until the caller receives —
then awaits the cmp-server's reply (`CloseAndRecv`) and blocks sending it on
`responseCh`. `renderWork` counts the cmp-server's rendering steps. -/
inductive GenPhase
  | streaming (bytesLeft renderWork : Nat)
  | sendTarDone (renderWork : Nat)
  | rendering (renderWork : Nat)
  | sendResponse
  | genDone
deriving DecidableEq, Repr

/-- From `GenerateManifest` and `runRepoOperation` in the embedded
repository.go: the caller side. `firstSelect` is `operation`'s
`select { errCh | responseCh | tarDoneCh }` with the working-tree lock taken
by `runRepoOperation`; `opReturned` is `operation` having returned after
`tarDoneCh` fired (`tarConcluded` set), with `runRepoOperation`'s deferred
`utilio.Close(closer)` about to release the lock; `opReturnedWithRes` is the
same return with `res` already set in the first select; `secondSelect` is
`GenerateManifest`'s `select { responseCh | errCh }` entered after
`runRepoOperation` returned, when `tarConcluded && res == nil`. -/
inductive OrchPhase
  | firstSelect
  | opReturned
  | opReturnedWithRes
  | secondSelect
  | orchDone
deriving DecidableEq, Repr

/-- A configuration of the two concurrent tasks plus the emitted trace. -/
structure PluginRunState where
  gen : GenPhase
  orch : OrchPhase
  trace : List PluginEvent
deriving DecidableEq, Repr

/-- A scheduler choice: internal generator progress, a rendezvous on the
unbuffered `tarDoneCh` or `responseCh`, or the caller running its deferred
lock release and continuing. A disabled choice leaves the state unchanged. -/
inductive StepLabel
  | genStep
  | chanTarDone
  | chanResponse
  | orchReturn
deriving DecidableEq, Repr

/-- One step of the system. A channel rendezvous advances sender and receiver
together, as the unbuffered channels of `runManifestGen` do; the response is
receivable in the first select as well as in the second, exactly as in
`GenerateManifest`. -/
def pluginStep (st : PluginRunState) : StepLabel → PluginRunState
  | .genStep =>
    match st.gen with
    | .streaming (b + 1) k =>
      { st with gen := .streaming b k, trace := st.trace ++ [.tarByte] }
    | .streaming 0 k => { st with gen := .sendTarDone k }
    | .rendering (k + 1) => { st with gen := .rendering k }
    | .rendering 0 => { st with gen := .sendResponse }
    | _ => st
  | .chanTarDone =>
    match st.gen, st.orch with
    | .sendTarDone k, .firstSelect =>
      { st with gen := .rendering k, orch := .opReturned,
                trace := st.trace ++ [.tarDoneSignal] }
    | _, _ => st
  | .chanResponse =>
    match st.gen, st.orch with
    | .sendResponse, .firstSelect =>
      { st with gen := .genDone, orch := .opReturnedWithRes,
                trace := st.trace ++ [.gotResponse] }
    | .sendResponse, .secondSelect =>
      { st with gen := .genDone, orch := .orchDone,
                trace := st.trace ++ [.gotResponse] }
    | _, _ => st
  | .orchReturn =>
    match st.orch with
    | .opReturned =>
      { st with orch := .secondSelect, trace := st.trace ++ [.releaseLock] }
    | .opReturnedWithRes =>
      { st with orch := .orchDone, trace := st.trace ++ [.releaseLock] }
    | _ => st

/-- Run an arbitrary interleaving. -/
def runPluginSchedule (sched : List StepLabel) (st : PluginRunState) :
    PluginRunState :=
  sched.foldl pluginStep st

/-- The initial configuration: the goroutine is about to stream `bytes`
archive bytes, the caller sits in the first select holding the lock. -/
def initPluginRun (bytes renderWork : Nat) : PluginRunState :=
  { gen := .streaming bytes renderWork, orch := .firstSelect, trace := [] }

/-- The run invariant: the two trace orderings of the claim, plus the
bookkeeping that sustains them — while the caller sits in the first select the
goroutine has not passed the `tarDoneCh` rendezvous (its send blocks), the
deferred release only pends after `tarDoneCh` fired, the second select is
only reached after the release, and the early-response return is never
reached. -/
def PluginInv (st : PluginRunState) : Prop :=
  (∀ l1 l2, st.trace = l1 ++ PluginEvent.gotResponse :: l2 →
    PluginEvent.releaseLock ∈ l1)
  ∧ (∀ l1 l2, st.trace = l1 ++ PluginEvent.releaseLock :: l2 →
    PluginEvent.tarDoneSignal ∈ l1)
  ∧ (st.orch = .firstSelect →
      (∃ b k, st.gen = .streaming b k) ∨ ∃ k, st.gen = .sendTarDone k)
  ∧ (st.orch = .opReturned → PluginEvent.tarDoneSignal ∈ st.trace)
  ∧ ((st.orch = .secondSelect ∨ st.orch = .orchDone) →
      PluginEvent.releaseLock ∈ st.trace)
  ∧ st.orch ≠ .opReturnedWithRes

theorem snoc_eq_append_cons (tr : List PluginEvent) (e x : PluginEvent)
    (l1 l2 : List PluginEvent) (h : tr ++ [e] = l1 ++ x :: l2) :
    (l1 = tr ∧ x = e) ∨ ∃ l2', tr = l1 ++ x :: l2' := by
  rcases List.eq_nil_or_concat l2 with rfl | ⟨l2', a, rfl⟩
  · have hlen : ([e] : List PluginEvent).length = ([x] : List PluginEvent).length := rfl
    have := List.append_inj' (by simpa using h) hlen
    exact Or.inl ⟨this.1.symm, (List.singleton_injective this.2).symm⟩
  · have h' : tr ++ [e] = (l1 ++ x :: l2') ++ [a] := by
      rw [h]
      simp
    have hlen : ([e] : List PluginEvent).length = ([a] : List PluginEvent).length := rfl
    have := List.append_inj' h' hlen
    exact Or.inr ⟨l2', this.1⟩

theorem orderedProp_snoc (x w : PluginEvent) (tr : List PluginEvent) (e : PluginEvent)
    (hold : ∀ l1 l2, tr = l1 ++ x :: l2 → w ∈ l1) (hnew : e = x → w ∈ tr) :
    ∀ l1 l2, tr ++ [e] = l1 ++ x :: l2 → w ∈ l1 := by
  intro l1 l2 h
  rcases snoc_eq_append_cons tr e x l1 l2 h with ⟨hl1, hxe⟩ | ⟨l2', htr⟩
  · rw [hl1]
    exact hnew hxe.symm
  · exact hold l1 l2' htr

theorem pluginInv_init (bytes renderWork : Nat) :
    PluginInv (initPluginRun bytes renderWork) := by
  refine ⟨?_, ?_, ?_, ?_, ?_, ?_⟩
  · intro l1 l2 h
    have h' : ([] : List PluginEvent) = l1 ++ PluginEvent.gotResponse :: l2 := h
    exact absurd h'.symm (by simp)
  · intro l1 l2 h
    have h' : ([] : List PluginEvent) = l1 ++ PluginEvent.releaseLock :: l2 := h
    exact absurd h'.symm (by simp)
  · intro _
    exact Or.inl ⟨bytes, renderWork, rfl⟩
  · intro h
    cases h
  · intro h
    rcases h with h | h <;> cases h
  · intro h
    cases h

theorem pluginInv_step (st : PluginRunState) (hinv : PluginInv st) (l : StepLabel) :
    PluginInv (pluginStep st l) := by
  obtain ⟨gen, orch, trace⟩ := st
  obtain ⟨h1, h2, h3, h4, h5, h6⟩ := hinv
  cases l with
  | genStep =>
    cases gen with
    | streaming b k =>
      cases b with
      | zero =>
        exact ⟨h1, h2, fun _ => Or.inr ⟨k, rfl⟩, h4, h5, h6⟩
      | succ b' =>
        refine ⟨?_, ?_, fun _ => Or.inl ⟨b', k, rfl⟩, ?_, ?_, h6⟩
        · exact orderedProp_snoc _ _ _ _ h1 (by intro hx; cases hx)
        · exact orderedProp_snoc _ _ _ _ h2 (by intro hx; cases hx)
        · intro h
          exact List.mem_append_left _ (h4 h)
        · intro h
          exact List.mem_append_left _ (h5 h)
    | sendTarDone k => exact ⟨h1, h2, h3, h4, h5, h6⟩
    | rendering k =>
      cases k with
      | zero =>
        refine ⟨h1, h2, ?_, h4, h5, h6⟩
        intro horch
        rcases h3 horch with ⟨b, k', hg⟩ | ⟨k', hg⟩ <;> cases hg
      | succ k' =>
        refine ⟨h1, h2, ?_, h4, h5, h6⟩
        intro horch
        rcases h3 horch with ⟨b, k'', hg⟩ | ⟨k'', hg⟩ <;> cases hg
    | sendResponse => exact ⟨h1, h2, h3, h4, h5, h6⟩
    | genDone => exact ⟨h1, h2, h3, h4, h5, h6⟩
  | chanTarDone =>
    cases gen with
    | streaming b k => cases orch <;> exact ⟨h1, h2, h3, h4, h5, h6⟩
    | sendTarDone k =>
      cases orch with
      | firstSelect =>
        refine ⟨?_, ?_, ?_, ?_, ?_, ?_⟩
        · exact orderedProp_snoc _ _ _ _ h1 (by intro hx; cases hx)
        · exact orderedProp_snoc _ _ _ _ h2 (by intro hx; cases hx)
        · intro h
          cases h
        · intro _
          exact List.mem_append_right _ (List.mem_singleton.mpr rfl)
        · intro h
          rcases h with h | h <;> cases h
        · intro h
          cases h
      | opReturned => exact ⟨h1, h2, h3, h4, h5, h6⟩
      | opReturnedWithRes => exact ⟨h1, h2, h3, h4, h5, h6⟩
      | secondSelect => exact ⟨h1, h2, h3, h4, h5, h6⟩
      | orchDone => exact ⟨h1, h2, h3, h4, h5, h6⟩
    | rendering k => cases orch <;> exact ⟨h1, h2, h3, h4, h5, h6⟩
    | sendResponse => cases orch <;> exact ⟨h1, h2, h3, h4, h5, h6⟩
    | genDone => cases orch <;> exact ⟨h1, h2, h3, h4, h5, h6⟩
  | chanResponse =>
    cases gen with
    | streaming b k => cases orch <;> exact ⟨h1, h2, h3, h4, h5, h6⟩
    | sendTarDone k => cases orch <;> exact ⟨h1, h2, h3, h4, h5, h6⟩
    | rendering k => cases orch <;> exact ⟨h1, h2, h3, h4, h5, h6⟩
    | sendResponse =>
      cases orch with
      | firstSelect =>
        exfalso
        rcases h3 rfl with ⟨b, k, hg⟩ | ⟨k, hg⟩ <;> cases hg
      | opReturned => exact ⟨h1, h2, h3, h4, h5, h6⟩
      | opReturnedWithRes => exact ⟨h1, h2, h3, h4, h5, h6⟩
      | secondSelect =>
        refine ⟨?_, ?_, ?_, ?_, ?_, ?_⟩
        · exact orderedProp_snoc _ _ _ _ h1 (fun _ => h5 (Or.inl rfl))
        · exact orderedProp_snoc _ _ _ _ h2 (by intro hx; cases hx)
        · intro h
          cases h
        · intro h
          cases h
        · intro _
          exact List.mem_append_left _ (h5 (Or.inl rfl))
        · intro h
          cases h
      | orchDone => exact ⟨h1, h2, h3, h4, h5, h6⟩
    | genDone => cases orch <;> exact ⟨h1, h2, h3, h4, h5, h6⟩
  | orchReturn =>
    cases orch with
    | firstSelect => exact ⟨h1, h2, h3, h4, h5, h6⟩
    | opReturned =>
      refine ⟨?_, ?_, ?_, ?_, ?_, ?_⟩
      · exact orderedProp_snoc _ _ _ _ h1 (by intro hx; cases hx)
      · exact orderedProp_snoc _ _ _ _ h2 (fun _ => h4 rfl)
      · intro h
        cases h
      · intro h
        cases h
      · intro _
        exact List.mem_append_right _ (List.mem_singleton.mpr rfl)
      · intro h
        cases h
    | opReturnedWithRes => exact absurd rfl h6
    | secondSelect => exact ⟨h1, h2, h3, h4, h5, h6⟩
    | orchDone => exact ⟨h1, h2, h3, h4, h5, h6⟩

theorem pluginInv_run (sched : List StepLabel) :
    ∀ st : PluginRunState, PluginInv st → PluginInv (runPluginSchedule sched st) := by
  induction sched with
  | nil => intro st h; exact h
  | cons c rest ih =>
    intro st h
    rw [runPluginSchedule, List.foldl_cons]
    exact ih _ (pluginInv_step st h c)

/-- C2: on the plugin (CMP) path, under every interleaving of the generator
goroutine and the `GenerateManifest` caller, the emitted trace puts
`releaseLock` strictly before every `gotResponse` and the `tarDoneSignal`
strictly before every `releaseLock` — the working-tree lock is released as
soon as the `tarDone` signal is observed and before the plugin's response is
awaited; and the straight-line schedule exhibits the full trace in exactly
that order, so the events do occur. -/
theorem plugin_lock_release_order :
    (∀ (bytes renderWork : Nat) (sched : List StepLabel),
      (∀ l1 l2, (runPluginSchedule sched (initPluginRun bytes renderWork)).trace =
          l1 ++ PluginEvent.gotResponse :: l2 → PluginEvent.releaseLock ∈ l1)
      ∧ (∀ l1 l2, (runPluginSchedule sched (initPluginRun bytes renderWork)).trace =
          l1 ++ PluginEvent.releaseLock :: l2 → PluginEvent.tarDoneSignal ∈ l1))
    ∧ (runPluginSchedule
        [.genStep, .genStep, .genStep, .chanTarDone, .orchReturn, .genStep,
         .genStep, .chanResponse] (initPluginRun 2 1)).trace =
      [PluginEvent.tarByte, PluginEvent.tarByte, PluginEvent.tarDoneSignal,
       PluginEvent.releaseLock, PluginEvent.gotResponse] := by
  constructor
  · intro bytes renderWork sched
    have h := pluginInv_run sched (initPluginRun bytes renderWork)
      (pluginInv_init bytes renderWork)
    exact ⟨h.1, h.2.1⟩
  · rfl

end ArgoProj
